import Mathlib

/-!
# CS-300: chaining hash table and vector sorting

A shallow embedding of `HashTablesNew.cpp` (the `HashTable` class and `loadBids`)
and of `VectorSorting.cpp` (`selectionSort`, `partition`, `quickSort`, `loadBids`),
followed by the properties proved about them.

Modelling conventions

* `std::string` is `String`; `==` is equality and `<`, `<=` are the lexicographic
  order of the character lists (`String.data`).
* `double` values are only stored and copied by the code under study; they are
  represented by rationals, `0.0` being `0`.
* `unsigned int` and `size_t` values are natural numbers, reduced modulo `2^32`
  resp. `2^64` where the source can wrap; `int` values are integers.
* A bucket of the table is the `Node` stored in the vector together with the list
  of heap nodes reached from it through `next`, in link order.
* `nodes.at(key)` throws when `key` is out of range: the table operations return
  `none` in that case.
* `delete node` on a heap node of a chain releases its storage: the node is gone
  from the chain and nothing else changes.
* In its head case `Remove` applies `delete` to `&nodes.at(key)`, an element of the
  vector and not a heap node.  This is undefined behaviour in C++ (a run aborts
  inside the call, or releases the whole bucket array when the element is the
  first one).  The table records it in the ghost field `undefinedDelete`, which no
  operation resets: once it is set, the other fields show what the statements of
  the program last wrote, and nothing is promised about what a run goes on to do.
* On the empty vector the bound `size - 1` of the outer loop of `selectionSort`
  wraps around to `2^64 - 1` (`selectionBound`): the value the model gives for
  this call is the vector after that many iterations, which no run completes in
  practice.
-/

namespace CS300

/-! ## Records -/

/-- A bid record: `struct Bid`, whose constructor leaves the strings empty and sets
`amount` to `0.0`. -/
structure Bid where
  bidId : String := ""
  title : String := ""
  fund : String := ""
  amount : Rat := 0
  deriving DecidableEq, Repr, Inhabited

/-! ## C library: `atoi` -/

/-- The C `isspace` in the default locale: space, and the controls 9 to 13. -/
def isspace (c : Char) : Bool :=
  c.toNat = 32 || (9 ≤ c.toNat && c.toNat ≤ 13)

/-- The value of the longest prefix of decimal digits, accumulated left to right. -/
def atoiDigits : Int → List Char → Int
  | acc, [] => acc
  | acc, c :: cs =>
    if 48 ≤ c.toNat ∧ c.toNat ≤ 57 then atoiDigits (acc * 10 + ((c.toNat : Int) - 48)) cs
    else acc

/-- The C `strtol` in base 10 on a 64-bit `long`: leading white space, an optional
sign, then digits; the value saturates at the ends of the range. -/
def strtol (s : String) : Int :=
  let v : Int :=
    match s.data.dropWhile isspace with
    | [] => 0
    | c :: cs =>
      if c.toNat = 45 then - atoiDigits 0 cs
      else if c.toNat = 43 then atoiDigits 0 cs
      else atoiDigits 0 (c :: cs)
  if v < -(2 : Int) ^ 63 then -(2 : Int) ^ 63
  else if (2 : Int) ^ 63 - 1 < v then (2 : Int) ^ 63 - 1
  else v

/-- Narrowing of an integer to a 32-bit `int`. -/
def toInt32 (v : Int) : Int :=
  (v + 2 ^ 31) % 2 ^ 32 - 2 ^ 31

/-- The C `atoi`: `strtol` narrowed to `int`. -/
def atoi (s : String) : Int :=
  toInt32 (strtol s)

/-! ## The hash table -/

/-- The constant `UINT_MAX`, the key of an unused node. -/
def UINT_MAX : Nat := 4294967295

/-- The constant `DEFAULT_SIZE`. -/
def DEFAULT_SIZE : Nat := 179

/-- The `bid` and `key` fields of a heap `Node` of a chain; its `next` field is
given by its position in the chain. -/
structure NodeData where
  bid : Bid := {}
  key : Nat := UINT_MAX
  deriving DecidableEq, Repr, Inhabited

/-- A `Node` of the vector: its `bid` and `key`, and in `next` the chain of heap
nodes linked from it.  The defaults are those of `Node()`. -/
structure Node where
  bid : Bid := {}
  key : Nat := UINT_MAX
  next : List NodeData := []
  deriving DecidableEq, Repr, Inhabited

/-- The class `HashTable`: the vector `nodes` and the field `tableSize`, and the ghost
field `undefinedDelete`, set once `delete` has been applied to an element of `nodes`. -/
structure HashTable where
  nodes : List Node
  tableSize : Nat
  undefinedDelete : Bool := false
  deriving DecidableEq, Repr

namespace HashTable

/-- The constructor `HashTable(unsigned int size)`. -/
def new (size : Nat) : HashTable :=
  { nodes := List.replicate size {}, tableSize := size }

/-- The default constructor `HashTable()`. -/
def mkDefault : HashTable :=
  { nodes := List.replicate DEFAULT_SIZE {}, tableSize := DEFAULT_SIZE }

/-- The method `hash(int key)`: `key % tableSize`, computed in `unsigned int`. -/
def hash (t : HashTable) (key : Int) : Nat :=
  (key % 2 ^ 32).toNat % t.tableSize

/-- The method `Insert(Bid bid)`. -/
def Insert (t : HashTable) (bid : Bid) : Option HashTable :=
  let key := t.hash (atoi bid.bidId)
  match t.nodes[key]? with
  | none => none
  | some node =>
    if node.key = UINT_MAX then
      some { t with nodes := t.nodes.set key { node with key := key, bid := bid } }
    else
      some { t with nodes := t.nodes.set key { node with next := node.next ++ [⟨bid, key⟩] } }

/-- The traversal of `Remove` along a chain: the first node whose `bidId` is the
one sought is unlinked. -/
def unlink (bidId : String) : List NodeData → List NodeData
  | [] => []
  | n :: rest => if n.bid.bidId = bidId then rest else n :: unlink bidId rest

/-- The method `Remove(string bidId)`.  When the node found is the head (`prev == nullptr`),
the key of the head is set to `UINT_MAX` and `delete` is then applied to the element of the
vector itself: undefined behaviour, recorded in `undefinedDelete`.  When it is a chained
node, the node is unlinked and deleted.  When no node is found nothing is written. -/
def Remove (t : HashTable) (bidId : String) : Option HashTable :=
  let key := t.hash (atoi bidId)
  match t.nodes[key]? with
  | none => none
  | some node =>
    if node.bid.bidId = bidId then
      some { t with nodes := t.nodes.set key { node with key := UINT_MAX },
                    undefinedDelete := true }
    else
      some { t with nodes := t.nodes.set key { node with next := unlink bidId node.next } }

/-- The traversal of `Search` along a chain: the bid of the first node whose
`bidId` is the one sought. -/
def findBid (bidId : String) : List NodeData → Option Bid
  | [] => none
  | n :: rest => if n.bid.bidId = bidId then some n.bid else findBid bidId rest

/-- The method `Search(string bidId)`; `Bid()` when no node matches. -/
def Search (t : HashTable) (bidId : String) : Option Bid :=
  let key := t.hash (atoi bidId)
  match t.nodes[key]? with
  | none => none
  | some node =>
    if node.bid.bidId = bidId then some node.bid
    else some ((findBid bidId node.next).getD {})

/-- The method `Size()`: `nodes.size()`. -/
def Size (t : HashTable) : Nat :=
  t.nodes.length

/-- The lines that `PrintAll` writes for one bucket, each line given by the key and the bid
it renders: nothing when the head is unused, else the head and then the chain. -/
def printBucket (node : Node) : List NodeData :=
  if node.key ≠ UINT_MAX then ⟨node.bid, node.key⟩ :: node.next else []

/-- The loop of `PrintAll`, `for (i; i < tableSize; ++i)`, with the number of iterations
left as first argument. -/
def printLoop (t : HashTable) : Nat → Nat → Option (List NodeData)
  | 0, _ => some []
  | n + 1, i =>
    match t.nodes[i]? with
    | none => none
    | some node => (printLoop t n (i + 1)).map fun rest => printBucket node ++ rest

/-- The method `PrintAll()`: the lines written, in order. -/
def PrintAll (t : HashTable) : Option (List NodeData) :=
  printLoop t t.tableSize 0

end HashTable

/-- A call of one of the two mutating methods. -/
inductive Op where
  | insert (bid : Bid)
  | remove (bidId : String)
  deriving DecidableEq, Repr

/-- One call applied to a table. -/
def step (t : HashTable) : Op → Option HashTable
  | Op.insert bid => t.Insert bid
  | Op.remove bidId => t.Remove bidId

/-- A sequence of calls applied in order. -/
def run (t : HashTable) : List Op → Option HashTable
  | [] => some t
  | op :: ops => (step t op).bind fun t1 => run t1 ops

/-- The bid with the given identifier and title used in the examples. -/
def mkBid (bidId title : String) : Bid :=
  { bidId := bidId, title := title }

/-! ## The vector and its sorting functions -/

/-- Reading `bids[i]`.  The index is within the vector wherever the functions below read. -/
def nth (bids : List Bid) (i : Nat) : Bid :=
  bids.getD i {}

/-- The call `swap(bids[i], bids[j])`, for two indices within the vector. -/
def swap (bids : List Bid) (i j : Nat) : List Bid :=
  match bids[i]?, bids[j]? with
  | some a, some b => (bids.set i b).set j a
  | _, _ => bids

/-- The inner loop of `selectionSort`, `for (j; j < size; ++j)`, with the number of
iterations left as first argument; the result is the final value of `min`. -/
def minLoop (bids : List Bid) : Nat → Nat → Nat → Nat
  | 0, _, min => min
  | n + 1, j, min =>
    if (nth bids j).title.data < (nth bids min).title.data then minLoop bids n (j + 1) j
    else minLoop bids n (j + 1) min

/-- The outer loop of `selectionSort`, `for (pos; pos < size - 1; ++pos)`, with the number
of iterations left as first argument. -/
def selectionLoop (size : Nat) : Nat → Nat → List Bid → List Bid
  | 0, _, bids => bids
  | n + 1, pos, bids =>
    let min := minLoop bids (size - (pos + 1)) (pos + 1) pos
    selectionLoop size n (pos + 1) (if min ≠ pos then swap bids pos min else bids)

/-- The bound `size - 1` of the outer loop of `selectionSort`, computed in `size_t`, modulo
`2^64`: the number of iterations of that loop. -/
def selectionBound (size : Nat) : Nat :=
  (size + 2 ^ 64 - 1) % 2 ^ 64

/-- The function `selectionSort`: the vector after the `selectionBound size` iterations of
the outer loop. -/
def selectionSort (bids : List Bid) : List Bid :=
  let size := bids.length
  selectionLoop size (selectionBound size) 0 bids

/-- The loop of `partition`, `for (j; j < end; ++j)`, with the number of iterations left as
first argument; the result is the final `low` and the vector. -/
def partitionLoop (pivot : String) : Nat → Int → Int → List Bid → Int × List Bid
  | 0, _, low, bids => (low, bids)
  | n + 1, j, low, bids =>
    if (nth bids j.toNat).title.data ≤ pivot.data then
      partitionLoop pivot n (j + 1) (low + 1) (swap bids (low + 1).toNat j.toNat)
    else partitionLoop pivot n (j + 1) low bids

/-- The function `partition`: the returned index and the vector afterwards. -/
def partition (bids : List Bid) (begin end_ : Int) : Int × List Bid :=
  let pivot := (nth bids end_.toNat).title
  let res := partitionLoop pivot (end_ - begin).toNat begin (begin - 1) bids
  (res.1 + 1, swap res.2 (res.1 + 1).toNat end_.toNat)

/-- The function `quickSort` with a bound on the depth of the recursion; `none` when the
bound is reached. -/
def quickSortFuel : Nat → List Bid → Int → Int → Option (List Bid)
  | 0, _, _, _ => none
  | fuel + 1, bids, begin, end_ =>
    if begin ≥ end_ then some bids
    else
      let res := partition bids begin end_
      match quickSortFuel fuel res.2 begin (res.1 - 1) with
      | none => none
      | some bids2 => quickSortFuel fuel bids2 (res.1 + 1) end_

/-- The function `quickSort`, its recursion bounded by the length of the range. -/
def quickSort (bids : List Bid) (begin end_ : Int) : Option (List Bid) :=
  quickSortFuel ((end_ - begin).toNat + 1) bids begin end_

/-! ## The loader -/

/-- Modelled from the spec: a data row of `csv::Parser` (`CSVparser.hpp` is not among the
sources), the list of its fields; the header row is not among the data rows. -/
abbrev Row := List String

/-- Modelled from the spec: the field access `file[i][k]` of `csv::Parser`, which raises
`csv::Error` (`none`) when the row has no field `k`. -/
def Row.field (row : Row) (k : Nat) : Option String :=
  row[k]?

/-- The function `strToDouble`: every occurrence of `ch` is erased, then `atof` is applied.
The C library's `atof` is a parameter. -/
def strToDouble (atof : String → Rat) (str : String) (ch : Char) : Rat :=
  atof (String.mk (str.data.filter fun c => c ≠ ch))

/-- The body of the loop of `loadBids` up to the record it builds: the fields 1, 0, 8 and 4
are read in this order; `none` when one of the accesses raises `csv::Error`. -/
def readBid (atof : String → Rat) (row : Row) : Option Bid :=
  match row.field 1 with
  | none => none
  | some bidId =>
    match row.field 0 with
    | none => none
    | some title =>
      match row.field 8 with
      | none => none
      | some fund =>
        match row.field 4 with
        | none => none
        | some amount =>
          some { bidId := bidId, title := title, fund := fund,
                 amount := strToDouble atof amount '$' }

/-- The loop of `loadBids` in `VectorSorting.cpp`, inside its `try` block: an error leaves
the loop for the handler, which prints the message; the vector read so far is returned. -/
def loadLoop (atof : String → Rat) : List Row → List Bid → List Bid
  | [], bids => bids
  | row :: rest, bids =>
    match readBid atof row with
    | none => bids
    | some bid => loadLoop atof rest (bids ++ [bid])

/-- The function `loadBids` of `VectorSorting.cpp`, on the data rows of the file. -/
def loadBids (atof : String → Rat) (rows : List Row) : List Bid :=
  loadLoop atof rows []

/-- The function `loadBids` of `HashTablesNew.cpp`, on the data rows of the file: each
record is passed to `Insert`; an error leaves the loop for the handler. -/
def loadBidsTable (atof : String → Rat) : List Row → HashTable → Option HashTable
  | [], t => some t
  | row :: rest, t =>
    match readBid atof row with
    | none => some t
    | some bid =>
      match t.Insert bid with
      | none => none
      | some t1 => loadBidsTable atof rest t1

/-- A row with the nine fields that `loadBids` reads, for the examples. -/
def goodRow (bidId title : String) : Row :=
  [title, bidId, "", "", "$10", "", "", "", "General Fund"]

/-- A row with two fields only: the access to field 8 raises the error. -/
def badRow : Row :=
  ["x", "9"]

/-- An amount parser for the examples, constantly 0; the properties shown do not depend
on the amounts. -/
def atofZero : String → Rat :=
  fun _ => 0

/-! ## Predicates and auxiliary definitions used in the statements and proofs -/

open HashTable

/-- The effect of `Insert` on the bucket it addresses. -/
def insNode (key : Nat) (bid : Bid) (node : Node) : Node :=
  if node.key = UINT_MAX then { node with key := key, bid := bid }
  else { node with next := node.next ++ [⟨bid, key⟩] }

/-- The effect of `Remove` on the bucket it addresses. -/
def remNode (bidId : String) (node : Node) : Node :=
  if node.bid.bidId = bidId then { node with key := UINT_MAX }
  else { node with next := unlink bidId node.next }

/-- The table with `undefinedDelete` set when `c` holds. -/
def markDelete (c : Bool) (t : HashTable) : HashTable :=
  { t with undefinedDelete := t.undefinedDelete || c }

/-- The head of the bucket of `bidId` has this identifier: `Remove(bidId)` takes its head
case. -/
def headMatch (t : HashTable) (bidId : String) : Bool :=
  match t.nodes[t.hash (atoi bidId)]? with
  | none => false
  | some node => decide (node.bid.bidId = bidId)

/-- Replacement of the bucket at `key` by its image under `f`. -/
def updateAt (t : HashTable) (key : Nat) (f : Node → Node) : Option HashTable :=
  match t.nodes[key]? with
  | none => none
  | some node => some { t with nodes := t.nodes.set key (f node) }

/-- The table has as many buckets as `tableSize` says, and at least one. -/
def WF (t : HashTable) : Prop :=
  t.nodes.length = t.tableSize ∧ 0 < t.tableSize

/-- The bucket `node` holds a record with identifier `x` that `Search` reaches and
that no later `Insert` overwrites: the head while it is in use, or a chain node. -/
def Holds (x : String) (node : Node) : Prop :=
  (node.bid.bidId = x ∧ node.key ≠ UINT_MAX) ∨ ∃ n ∈ node.next, n.bid.bidId = x

/-- The bucket that `x` hashes to holds a record with identifier `x`. -/
def Present (t : HashTable) (x : String) : Prop :=
  ∃ node, t.nodes[t.hash (atoi x)]? = some node ∧ Holds x node

/-- The table of 179 buckets whose bucket 0 has the record 179 as head and the record 358
as its only chained node: the table after `Insert` of 179 and of 358. -/
def chainedTable : HashTable :=
  { nodes := { bid := mkBid "179" "a", key := 0, next := [⟨mkBid "358" "b", 0⟩] } ::
      List.replicate 178 {},
    tableSize := 179 }

/-- Among the indices from `pos` up to `j`, the record at `min` has a least title. -/
def IsMinUpTo (l : List Bid) (pos j min : Nat) : Prop :=
  pos ≤ min ∧ min < j ∧ ∀ k, pos ≤ k → k < j → (nth l min).title.data ≤ (nth l k).title.data

/-- The first `pos` records are in order and no later record has a smaller title. -/
def SortedUpTo (l : List Bid) (pos : Nat) : Prop :=
  ∀ i j, i < j → i < pos → j < l.length → (nth l i).title.data ≤ (nth l j).title.data

/-- The vectors `l` and `r` have the same length and the same records at every index
outside the range from `b` to `e`. -/
def SameOutside (l r : List Bid) (b e : Int) : Prop :=
  r.length = l.length ∧ ∀ k : Nat, ((k : Int) < b ∨ e < (k : Int)) → nth r k = nth l k

/-- Whatever holds of every record of `l` in the range from `b` to `e` holds of every record
of `r` in that range. -/
def RangePres (l r : List Bid) (b e : Int) : Prop :=
  ∀ P : Bid → Prop, (∀ k : Nat, b ≤ (k : Int) → (k : Int) ≤ e → P (nth l k)) →
    ∀ k : Nat, b ≤ (k : Int) → (k : Int) ≤ e → P (nth r k)

/-- In the range from `b` to `e` of `r`, the records before index `mid` have a title at most
that at `mid`, and the records after it a greater title. -/
def Partitioned (r : List Bid) (b mid e : Int) : Prop :=
  b ≤ mid ∧ mid ≤ e ∧
    (∀ k : Nat, b ≤ (k : Int) → (k : Int) < mid →
      (nth r k).title.data ≤ (nth r mid.toNat).title.data) ∧
    (∀ k : Nat, mid < (k : Int) → (k : Int) ≤ e →
      (nth r mid.toNat).title.data < (nth r k).title.data)

/-- The records of `r` in the range from `b` to `e` are in order of title. -/
def SortedRange (r : List Bid) (b e : Int) : Prop :=
  ∀ i j : Nat, b ≤ (i : Int) → i < j → (j : Int) ≤ e →
    (nth r i).title.data ≤ (nth r j).title.data

/-- The state of the loop of `partition` before the iteration at `j`: the records from `b`
to `low` have a title at most `pivot`, those after `low` and before `j` a greater one. -/
def LoopInv (pivot : String) (l : List Bid) (b low j : Int) : Prop :=
  b - 1 ≤ low ∧ low < j ∧
    (∀ k : Nat, b ≤ (k : Int) → (k : Int) ≤ low → (nth l k).title.data ≤ pivot.data) ∧
    (∀ k : Nat, low < (k : Int) → (k : Int) < j → pivot.data < (nth l k).title.data)

/-- The five bids used in the examples of the sorting functions. -/
def sampleBids : List Bid :=
  [mkBid "1" "d", mkBid "2" "c", mkBid "3" "a", mkBid "4" "b", mkBid "5" "c"]

/-- Every used node of the bucket `node` at index `i` has key `i`, and its identifier hashes
to `i` under `h`; the chain nodes are all used. -/
def Home (h : Int → Nat) (i : Nat) (node : Node) : Prop :=
  (node.key ≠ UINT_MAX → node.key = i ∧ h (atoi node.bid.bidId) = i) ∧
    ∀ n ∈ node.next, n.key = i ∧ h (atoi n.bid.bidId) = i

/-- The lines expected of `PrintAll` after `Insert` of the records `bids` in this order, with
`h` giving the bucket index of an `atoi` value: bucket by bucket in ascending index, and in
each bucket the records that hash to it in their order of insertion, each with its key. -/
def linesByBucket (h : Int → Nat) (size : Nat) (bids : List Bid) : List NodeData :=
  (List.range size).flatMap fun i =>
    (bids.filter fun b => h (atoi b.bidId) = i).map fun b => ⟨b, i⟩

/-- The bucket `node` at index `i` of a table built by `Insert` of `bids` only: an unused
head has no chain, and the lines printed for the bucket are the records of `bids` that hash
to `i`, in order. -/
def InsertOnly (h : Int → Nat) (bids : List Bid) (i : Nat) (node : Node) : Prop :=
  (node.key = UINT_MAX → node.next = []) ∧
    printBucket node = (bids.filter fun b => h (atoi b.bidId) = i).map fun b => ⟨b, i⟩

/-! ## Hash table: auxiliary lemmas -/

theorem Insert_eq (t : HashTable) (bid : Bid) :
    t.Insert bid = updateAt t (t.hash (atoi bid.bidId)) (insNode (t.hash (atoi bid.bidId)) bid) := by
  simp only [HashTable.Insert, updateAt, insNode]
  split
  · rfl
  · split <;> rfl

theorem markDelete_false (t : HashTable) : markDelete false t = t := by
  cases t
  simp [markDelete]

theorem Remove_eq (t : HashTable) (bidId : String) :
    t.Remove bidId =
      (updateAt t (t.hash (atoi bidId)) (remNode bidId)).map (markDelete (headMatch t bidId)) := by
  simp only [HashTable.Remove, updateAt, remNode, headMatch]
  split
  · rfl
  · split <;> simp_all [markDelete]

theorem map_markDelete (o : Option HashTable) (c : Bool) (t1 : HashTable) (h : o = some t1) :
    o.map (markDelete c) = some (markDelete c t1) := by
  rw [h]
  rfl

theorem WF_new (size : Nat) (h : 0 < size) : WF (HashTable.new size) := by
  simp [WF, HashTable.new, h]

theorem hash_lt (t : HashTable) (h : 0 < t.tableSize) (key : Int) : t.hash key < t.tableSize :=
  Nat.mod_lt _ h

theorem updateAt_some (t : HashTable) (key : Nat) (f : Node → Node) (hk : key < t.nodes.length) :
    updateAt t key f =
      some { t with nodes := t.nodes.set key (f (t.nodes.get ⟨key, hk⟩)) } := by
  unfold updateAt
  rw [List.getElem?_eq_getElem hk]
  rfl

theorem step_eq (t : HashTable) (op : Op) :
    ∃ key f c, step t op = (updateAt t key f).map (markDelete c) ∧
      key = t.hash (atoi (match op with
        | Op.insert b => b.bidId
        | Op.remove x => x)) := by
  cases op with
  | insert b =>
    refine ⟨t.hash (atoi b.bidId), insNode (t.hash (atoi b.bidId)) b, false, ?_, rfl⟩
    simp only [step, Insert_eq]
    cases updateAt t (t.hash (atoi b.bidId)) (insNode (t.hash (atoi b.bidId)) b) with
    | none => rfl
    | some t1 => simp [markDelete_false]
  | remove x => exact ⟨_, _, _, Remove_eq t x, rfl⟩

theorem updateAt_WF (t : HashTable) (hwf : WF t) (key : Nat) (f : Node → Node)
    (hk : key < t.tableSize) :
    ∃ t1, updateAt t key f = some t1 ∧ WF t1 ∧ t1.tableSize = t.tableSize ∧
      t1.nodes = t.nodes.set key (f (t.nodes.getD key {})) := by
  have hk2 : key < t.nodes.length := by rw [hwf.1]; exact hk
  refine ⟨_, updateAt_some t key f hk2, ?_, rfl, ?_⟩
  · simp [WF] at hwf ⊢
    exact hwf
  · simp [List.getD_eq_getElem?_getD, List.getElem?_eq_getElem hk2]

theorem step_WF (t : HashTable) (hwf : WF t) (op : Op) :
    ∃ t1, step t op = some t1 ∧ WF t1 ∧ t1.tableSize = t.tableSize := by
  obtain ⟨key, f, c, h1, h2⟩ := step_eq t op
  obtain ⟨t1, h3, h4, h5, _⟩ := updateAt_WF t hwf key f (by rw [h2]; exact hash_lt t hwf.2 _)
  exact ⟨markDelete c t1, by rw [h1, map_markDelete _ c t1 h3], h4, h5⟩

theorem run_WF (ops : List Op) : ∀ (t : HashTable), WF t →
    ∃ t1, run t ops = some t1 ∧ WF t1 ∧ t1.tableSize = t.tableSize := by
  induction ops with
  | nil => intro t hwf; exact ⟨t, rfl, hwf, rfl⟩
  | cons op ops ih =>
    intro t hwf
    obtain ⟨t1, h1, h2, h3⟩ := step_WF t hwf op
    obtain ⟨t2, h4, h5, h6⟩ := ih t1 h2
    exact ⟨t2, by simp [run, h1, h4], h5, by rw [h6, h3]⟩

theorem run_append (ops1 ops2 : List Op) : ∀ (t : HashTable),
    run t (ops1 ++ ops2) = (run t ops1).bind fun t1 => run t1 ops2 := by
  induction ops1 with
  | nil => intro t; simp [run]
  | cons op ops ih =>
    intro t
    simp only [List.cons_append, run]
    cases step t op with
    | none => simp
    | some t1 => simp [ih]

theorem step_length (t t1 : HashTable) (op : Op) (h : step t op = some t1) :
    t1.nodes.length = t.nodes.length := by
  obtain ⟨key, f, c, h1, _⟩ := step_eq t op
  rw [h1] at h
  unfold updateAt at h
  cases hn : t.nodes[key]? with
  | none => simp [hn] at h
  | some node =>
    simp [hn] at h
    rw [← h]
    simp [markDelete]

theorem run_length (ops : List Op) : ∀ (t t1 : HashTable), run t ops = some t1 →
    t1.nodes.length = t.nodes.length := by
  induction ops with
  | nil => intro t t1 h; simp [run] at h; rw [h]
  | cons op ops ih =>
    intro t t1 h
    simp only [run] at h
    cases hs : step t op with
    | none => simp [hs] at h
    | some t2 =>
      simp [hs] at h
      rw [ih t2 t1 h, step_length t t2 op hs]

theorem insNode_holds_self (key : Nat) (hkey : key ≠ UINT_MAX) (b : Bid) (node : Node) :
    Holds b.bidId (insNode key b node) := by
  unfold insNode Holds
  by_cases h : node.key = UINT_MAX
  · simp [h, hkey]
  · rw [if_neg h]
    exact Or.inr ⟨⟨b, key⟩, by simp, rfl⟩

theorem insNode_holds (key : Nat) (c : Bid) (x : String) (node : Node) (h : Holds x node) :
    Holds x (insNode key c node) := by
  unfold insNode
  rcases h with ⟨h1, h2⟩ | ⟨n, hn, hx⟩
  · rw [if_neg h2]
    exact Or.inl ⟨h1, h2⟩
  · by_cases hk : node.key = UINT_MAX
    · rw [if_pos hk]
      exact Or.inr ⟨n, hn, hx⟩
    · rw [if_neg hk]
      exact Or.inr ⟨n, List.mem_append_left _ hn, hx⟩

theorem mem_unlink (y : String) (n : NodeData) (hne : n.bid.bidId ≠ y) :
    ∀ (chain : List NodeData), n ∈ chain → n ∈ unlink y chain := by
  intro chain
  induction chain with
  | nil => intro h; exact h
  | cons m rest ih =>
    intro h
    unfold unlink
    by_cases hm : m.bid.bidId = y
    · rw [if_pos hm]
      rcases List.mem_cons.mp h with h1 | h1
      · exact absurd (h1 ▸ hm) hne
      · exact h1
    · rw [if_neg hm]
      rcases List.mem_cons.mp h with h1 | h1
      · exact List.mem_cons.mpr (Or.inl h1)
      · exact List.mem_cons.mpr (Or.inr (ih h1))

theorem unlink_subset (y : String) (n : NodeData) :
    ∀ (chain : List NodeData), n ∈ unlink y chain → n ∈ chain := by
  intro chain
  induction chain with
  | nil => intro h; exact h
  | cons m rest ih =>
    intro h
    unfold unlink at h
    by_cases hm : m.bid.bidId = y
    · rw [if_pos hm] at h
      exact List.mem_cons_of_mem _ h
    · rw [if_neg hm] at h
      rcases List.mem_cons.mp h with h1 | h1
      · exact List.mem_cons.mpr (Or.inl h1)
      · exact List.mem_cons.mpr (Or.inr (ih h1))

theorem remNode_holds (y x : String) (hne : y ≠ x) (node : Node) (h : Holds x node) :
    Holds x (remNode y node) := by
  unfold remNode
  rcases h with ⟨h1, h2⟩ | ⟨n, hn, hx⟩
  · have : ¬ node.bid.bidId = y := by rw [h1]; exact fun e => hne e.symm
    rw [if_neg this]
    exact Or.inl ⟨h1, h2⟩
  · by_cases hk : node.bid.bidId = y
    · rw [if_pos hk]
      exact Or.inr ⟨n, hn, hx⟩
    · rw [if_neg hk]
      exact Or.inr ⟨n, mem_unlink y n (by rw [hx]; exact fun e => hne e.symm) _ hn, hx⟩

theorem findBid_of_mem (x : String) : ∀ (chain : List NodeData),
    (∃ n ∈ chain, n.bid.bidId = x) → ∃ r, findBid x chain = some r ∧ r.bidId = x := by
  intro chain
  induction chain with
  | nil => rintro ⟨n, hn, _⟩; cases hn
  | cons m rest ih =>
    rintro ⟨n, hn, hx⟩
    unfold findBid
    by_cases hm : m.bid.bidId = x
    · rw [if_pos hm]
      exact ⟨m.bid, rfl, hm⟩
    · rw [if_neg hm]
      rcases List.mem_cons.mp hn with h1 | h1
      · exact absurd (h1 ▸ hx) hm
      · exact ih ⟨n, h1, hx⟩

theorem Search_of_present (t : HashTable) (x : String) (h : Present t x) :
    ∃ r, t.Search x = some r ∧ r.bidId = x := by
  obtain ⟨node, hnode, hh⟩ := h
  simp only [HashTable.Search, hnode]
  by_cases hb : node.bid.bidId = x
  · rw [if_pos hb]
    exact ⟨node.bid, rfl, hb⟩
  · rw [if_neg hb]
    rcases hh with ⟨h1, _⟩ | hc
    · exact absurd h1 hb
    · obtain ⟨r, hr, hrx⟩ := findBid_of_mem x node.next hc
      exact ⟨r, by rw [hr]; rfl, hrx⟩

theorem updateAt_present (t : HashTable) (hwf : WF t) (key : Nat) (f : Node → Node)
    (hk : key < t.tableSize) (x : String) (hf : ∀ node, Holds x node → Holds x (f node))
    (h : Present t x) :
    ∃ t1, updateAt t key f = some t1 ∧ WF t1 ∧ t1.tableSize = t.tableSize ∧ Present t1 x := by
  obtain ⟨t1, h1, h2, h3, h4⟩ := updateAt_WF t hwf key f hk
  refine ⟨t1, h1, h2, h3, ?_⟩
  obtain ⟨node, hnode, hh⟩ := h
  have hhash : t1.hash (atoi x) = t.hash (atoi x) := by simp [HashTable.hash, h3]
  unfold Present
  rw [hhash, h4, List.getElem?_set]
  by_cases hkx : key = t.hash (atoi x)
  · subst hkx
    have hlen : t.hash (atoi x) < t.nodes.length := by rw [hwf.1]; exact hk
    rw [if_pos rfl, if_pos hlen]
    refine ⟨_, rfl, hf _ ?_⟩
    rw [List.getD_eq_getElem?_getD, hnode]
    exact hh
  · rw [if_neg hkx]
    exact ⟨node, hnode, hh⟩

theorem step_present (t : HashTable) (hwf : WF t) (op : Op) (x : String)
    (hop : op ≠ Op.remove x) (h : Present t x) :
    ∃ t1, step t op = some t1 ∧ WF t1 ∧ t1.tableSize = t.tableSize ∧ Present t1 x := by
  cases op with
  | insert c =>
    simp only [step, Insert_eq]
    exact updateAt_present t hwf _ _ (hash_lt t hwf.2 _) x (fun node => insNode_holds _ c x node) h
  | remove y =>
    simp only [step, Remove_eq]
    have hne : y ≠ x := fun e => hop (by rw [e])
    obtain ⟨t1, h1, h2, h3, h4⟩ := updateAt_present t hwf _ (remNode y) (hash_lt t hwf.2 (atoi y)) x
      (fun node => remNode_holds y x hne node) h
    exact ⟨markDelete (headMatch t y) t1, map_markDelete _ _ t1 h1, h2, h3, h4⟩

theorem run_present (ops : List Op) (x : String) (hops : Op.remove x ∉ ops) :
    ∀ (t : HashTable), WF t → Present t x →
      ∃ t1, run t ops = some t1 ∧ WF t1 ∧ Present t1 x := by
  induction ops with
  | nil => intro t hwf h; exact ⟨t, rfl, hwf, h⟩
  | cons op ops ih =>
    intro t hwf h
    have hop : op ≠ Op.remove x := fun e => hops (by rw [e]; exact List.mem_cons_self _ _)
    obtain ⟨t1, h1, h2, _, h4⟩ := step_present t hwf op x hop h
    obtain ⟨t2, h5, h6, h7⟩ := ih (fun hm => hops (List.mem_cons_of_mem _ hm)) t1 h2 h4
    exact ⟨t2, by simp [run, h1, h5], h6, h7⟩

theorem Insert_present (t : HashTable) (hwf : WF t) (hmax : t.tableSize ≤ UINT_MAX) (b : Bid) :
    ∃ t1, t.Insert b = some t1 ∧ WF t1 ∧ t1.tableSize = t.tableSize ∧ Present t1 b.bidId := by
  have hk := hash_lt t hwf.2 (atoi b.bidId)
  obtain ⟨t1, h1, h2, h3, h4⟩ := updateAt_WF t hwf _ (insNode (t.hash (atoi b.bidId)) b) hk
  refine ⟨t1, by rw [Insert_eq, h1], h2, h3, ?_⟩
  have hhash : t1.hash (atoi b.bidId) = t.hash (atoi b.bidId) := by simp [HashTable.hash, h3]
  have hlen : t.hash (atoi b.bidId) < t.nodes.length := by rw [hwf.1]; exact hk
  unfold Present
  rw [hhash, h4, List.getElem?_set, if_pos rfl, if_pos hlen]
  exact ⟨_, rfl, insNode_holds_self _ (by omega) b _⟩

theorem findBid_none (x : String) : ∀ (chain : List NodeData),
    (∀ n ∈ chain, n.bid.bidId ≠ x) → findBid x chain = none := by
  intro chain
  induction chain with
  | nil => intro _; rfl
  | cons m rest ih =>
    intro h
    unfold findBid
    rw [if_neg (h m (List.mem_cons_self _ _))]
    exact ih fun n hn => h n (List.mem_cons_of_mem _ hn)

theorem step_undefinedDelete (t t1 : HashTable) (op : Op) (h : step t op = some t1)
    (hu : t.undefinedDelete = true) : t1.undefinedDelete = true := by
  obtain ⟨key, f, c, h1, _⟩ := step_eq t op
  rw [h1] at h
  unfold updateAt at h
  cases hn : t.nodes[key]? with
  | none => simp [hn] at h
  | some node =>
    simp [hn] at h
    rw [← h]
    simp [markDelete, hu]

theorem run_undefinedDelete (ops : List Op) : ∀ (t t1 : HashTable), run t ops = some t1 →
    t.undefinedDelete = true → t1.undefinedDelete = true := by
  induction ops with
  | nil => intro t t1 h hu; simp [run] at h; rw [← h]; exact hu
  | cons op ops ih =>
    intro t t1 h hu
    simp only [run] at h
    cases hs : step t op with
    | none => simp [hs] at h
    | some t2 =>
      simp [hs] at h
      exact ih t2 t1 h (step_undefinedDelete t t2 op hs hu)

/-- On runs that never apply `delete` to an element of the vector: after any calls `pre`, an
`Insert` of `b`, and any calls `post` without `Remove(b.bidId)`, `Search(b.bidId)` returns a
record with the identifier of `b`. -/
theorem search_finds_inserted_defined (size : Nat) (hpos : 0 < size) (hmax : size ≤ UINT_MAX)
    (pre post : List Op) (b : Bid) (hpost : Op.remove b.bidId ∉ post) (t : HashTable)
    (hrun : run (HashTable.new size) (pre ++ Op.insert b :: post) = some t)
    (hdef : t.undefinedDelete = false) :
    ∃ r, t.Search b.bidId = some r ∧ r.bidId = b.bidId := by
  have _ := hdef
  obtain ⟨t0, h0, hwf0, hsz0⟩ := run_WF pre (HashTable.new size) (WF_new size hpos)
  have hmax0 : t0.tableSize ≤ UINT_MAX := by rw [hsz0]; exact hmax
  obtain ⟨t1, h1, hwf1, _, hp1⟩ := Insert_present t0 hwf0 hmax0 b
  obtain ⟨t2, h2, _, hp2⟩ := run_present post b.bidId hpost t1 hwf1 hp1
  have ht : t = t2 := by
    rw [run_append, h0] at hrun
    simp [run, step, h1, h2] at hrun
    exact hrun.symm
  rw [ht]
  exact Search_of_present t2 b.bidId hp2

set_option maxRecDepth 100000 in
/-- C1, evaluated at the case `Insert(x)`, `Remove(x)`, `Insert(x)` that the claim names, in
the table of size 179 with `x` = 98223: after the first `Insert` the head of the bucket of `x`
is the record inserted, so `Remove(x)` takes its head case and applies `delete` to the element
of the vector.  The behaviour is undefined from that call on, before the second `Insert` and
the `Search`: `undefinedDelete` is set after `Remove` and stays set. -/
theorem C1_reinsert_after_undefined_delete :
    ((run (HashTable.new 179) [Op.insert (mkBid "98223" "a")]).map
        fun t => headMatch t "98223") = some true ∧
      ((run (HashTable.new 179) [Op.insert (mkBid "98223" "a"), Op.remove "98223"]).map
        fun t => t.undefinedDelete) = some true ∧
      ((run (HashTable.new 179) [Op.insert (mkBid "98223" "a"), Op.remove "98223",
          Op.insert (mkBid "98223" "b")]).map fun t => t.undefinedDelete) = some true := by
  decide

set_option maxRecDepth 100000 in
/-- C2, evaluated: in the table of size 179, after `Insert` of the record with identifier 1
that record is the head of bucket 1, with no chain, and `Remove("1")` takes its head case: it
applies `delete` to the element of the vector, so the behaviour of the call is undefined and
`Search("1")` is not reached in a defined state. -/
theorem C2_remove_head_is_undefined_delete :
    ((run (HashTable.new 179) [Op.insert (mkBid "1" "a")]).map
        fun t => (t.nodes[t.hash (atoi "1")]?, headMatch t "1")) =
        some (some { bid := mkBid "1" "a", key := 1, next := [] }, true) ∧
      ((run (HashTable.new 179) [Op.insert (mkBid "1" "a"), Op.remove "1"]).map
        fun t => t.undefinedDelete) = some true := by
  decide

/-- C10: for every bucket count `n` and every sequence of `Insert` and `Remove` calls, a
table reached from the one constructed with `n` buckets has `Size() = n`; for `n > 0` every
such sequence does reach a table; and the default constructor gives `Size() = 179`. -/
theorem C10_size_is_bucket_count (n : Nat) (ops : List Op) :
    (∀ t, run (HashTable.new n) ops = some t → t.Size = n) ∧
      (0 < n → ∃ t, run (HashTable.new n) ops = some t ∧ t.Size = n) ∧
      HashTable.mkDefault.Size = 179 := by
  have key : ∀ t, run (HashTable.new n) ops = some t → t.Size = n := by
    intro t h
    have := run_length ops _ _ h
    simpa [HashTable.Size, HashTable.new] using this
  refine ⟨key, ?_, ?_⟩
  · intro hpos
    obtain ⟨t, h1, _, _⟩ := run_WF ops (HashTable.new n) (WF_new n hpos)
    exact ⟨t, h1, key t h1⟩
  · simp only [HashTable.Size, HashTable.mkDefault, List.length_replicate, DEFAULT_SIZE]

/-! ## Sorting: auxiliary lemmas -/

theorem length_swap (l : List Bid) (i j : Nat) : (swap l i j).length = l.length := by
  unfold swap
  split <;> simp

theorem nth_swap (l : List Bid) (i j k : Nat) (hi : i < l.length) (hj : j < l.length) :
    nth (swap l i j) k = if k = j then nth l i else if k = i then nth l j else nth l k := by
  unfold swap nth
  rw [List.getElem?_eq_getElem hi, List.getElem?_eq_getElem hj]
  simp only [List.getD_eq_getElem?_getD, List.getElem?_set, List.length_set]
  by_cases h1 : k = j
  · subst h1
    simp [hj, List.getElem?_eq_getElem hi]
  · by_cases h2 : k = i
    · subst h2
      have : ¬ j = k := fun e => h1 e.symm
      simp [this, hi, h1, List.getElem?_eq_getElem hj]
    · have h3 : ¬ j = k := fun e => h1 e.symm
      have h4 : ¬ i = k := fun e => h2 e.symm
      simp [h1, h2, h3, h4]

theorem cons_set_perm (x b : Bid) : ∀ (xs : List Bid) (k : Nat), xs[k]? = some b →
    (b :: xs.set k x).Perm (x :: xs) := by
  intro xs
  induction xs with
  | nil => intro k h; simp at h
  | cons y ys ih =>
    intro k h
    cases k with
    | zero =>
      simp only [List.getElem?_cons_zero, Option.some.injEq] at h
      subst h
      simp only [List.set_cons_zero]
      exact List.Perm.swap _ _ _
    | succ k =>
      simp only [List.getElem?_cons_succ] at h
      simp only [List.set_cons_succ]
      exact ((List.Perm.swap y b _).trans ((ih k h).cons y)).trans (List.Perm.swap x y ys)

theorem set_set_perm (a b : Bid) : ∀ (l : List Bid) (i j : Nat), l[i]? = some a → l[j]? = some b →
    ((l.set i b).set j a).Perm l := by
  intro l
  induction l with
  | nil => intro i j h; simp at h
  | cons x xs ih =>
    intro i j hi hj
    cases i with
    | zero =>
      simp only [List.getElem?_cons_zero, Option.some.injEq] at hi
      subst hi
      cases j with
      | zero =>
        simp only [List.getElem?_cons_zero, Option.some.injEq] at hj
        subst hj
        simp
      | succ j =>
        simp only [List.getElem?_cons_succ] at hj
        simp only [List.set_cons_zero, List.set_cons_succ]
        exact cons_set_perm x b xs j hj
    | succ i =>
      simp only [List.getElem?_cons_succ] at hi
      cases j with
      | zero =>
        simp only [List.getElem?_cons_zero, Option.some.injEq] at hj
        subst hj
        simp only [List.set_cons_zero, List.set_cons_succ]
        exact cons_set_perm x a xs i hi
      | succ j =>
        simp only [List.getElem?_cons_succ] at hj
        simp only [List.set_cons_succ]
        exact (ih i j hi hj).cons x

theorem swap_perm (l : List Bid) (i j : Nat) : (swap l i j).Perm l := by
  unfold swap
  split
  · rename_i a b ha hb
    exact set_set_perm a b l i j ha hb
  · exact List.Perm.refl _

theorem minLoop_spec (l : List Bid) (pos : Nat) : ∀ (n j min : Nat),
    IsMinUpTo l pos j min → IsMinUpTo l pos (j + n) (minLoop l n j min) := by
  intro n
  induction n with
  | zero => intro j min h; exact h
  | succ n ih =>
    intro j min h
    obtain ⟨h1, h2, h3⟩ := h
    unfold minLoop
    have hjn : j + (n + 1) = (j + 1) + n := by omega
    rw [hjn]
    by_cases hlt : (nth l j).title.data < (nth l min).title.data
    · rw [if_pos hlt]
      apply ih
      refine ⟨by omega, by omega, ?_⟩
      intro k hk1 hk2
      by_cases hkj : k = j
      · rw [hkj]
      · exact le_trans (le_of_lt hlt) (h3 k hk1 (by omega))
    · rw [if_neg hlt]
      apply ih
      refine ⟨h1, by omega, ?_⟩
      intro k hk1 hk2
      by_cases hkj : k = j
      · rw [hkj]
        exact not_lt.mp hlt
      · exact h3 k hk1 (by omega)

theorem selectionLoop_length (size : Nat) : ∀ (n pos : Nat) (l : List Bid),
    (selectionLoop size n pos l).length = l.length := by
  intro n
  induction n with
  | zero => intro pos l; rfl
  | succ n ih =>
    intro pos l
    unfold selectionLoop
    simp only [ih]
    split
    · exact length_swap _ _ _
    · rfl

theorem selectionLoop_perm (size : Nat) : ∀ (n pos : Nat) (l : List Bid),
    (selectionLoop size n pos l).Perm l := by
  intro n
  induction n with
  | zero => intro pos l; exact List.Perm.refl _
  | succ n ih =>
    intro pos l
    unfold selectionLoop
    refine (ih _ _).trans ?_
    split
    · exact swap_perm _ _ _
    · exact List.Perm.refl _

theorem selection_step_sorted (l : List Bid) (pos : Nat) (hpos : pos + 1 < l.length)
    (h : SortedUpTo l pos) :
    SortedUpTo
      (if minLoop l (l.length - (pos + 1)) (pos + 1) pos ≠ pos then
        swap l pos (minLoop l (l.length - (pos + 1)) (pos + 1) pos) else l) (pos + 1) := by
  have hmin := minLoop_spec l pos (l.length - (pos + 1)) (pos + 1) pos
    ⟨le_refl _, by omega, fun k hk1 hk2 => by
      have : k = pos := by omega
      rw [this]⟩
  have hlen : pos + 1 + (l.length - (pos + 1)) = l.length := by omega
  rw [hlen] at hmin
  generalize minLoop l (l.length - (pos + 1)) (pos + 1) pos = m at hmin
  obtain ⟨hm1, hm2, hm3⟩ := hmin
  by_cases hne : m ≠ pos
  · rw [if_pos hne]
    intro i j hij hi hj
    rw [length_swap] at hj
    rw [nth_swap l pos m i (by omega) hm2, nth_swap l pos m j (by omega) hm2]
    by_cases hip : i = pos
    · have him : ¬ i = m := by omega
      rw [if_neg him, if_pos hip]
      by_cases hjm : j = m
      · rw [if_pos hjm]
        exact hm3 pos (le_refl _) (by omega)
      · have hjp : ¬ j = pos := by omega
        rw [if_neg hjm, if_neg hjp]
        exact hm3 j (by omega) hj
    · have him : ¬ i = m := by omega
      rw [if_neg him, if_neg hip]
      by_cases hjm : j = m
      · rw [if_pos hjm]
        exact h i pos (by omega) (by omega) (by omega)
      · rw [if_neg hjm]
        by_cases hjp : j = pos
        · rw [if_pos hjp]
          exact h i m (by omega) (by omega) hm2
        · rw [if_neg hjp]
          exact h i j hij (by omega) hj
  · have hmp : m = pos := not_not.mp hne
    rw [if_neg hne]
    intro i j hij hi hj
    by_cases hip : i = pos
    · rw [hip, ← hmp]
      exact hm3 j (by omega) hj
    · exact h i j hij (by omega) hj

theorem selectionLoop_sorted : ∀ (n pos : Nat) (l : List Bid),
    pos + n + 1 = l.length → SortedUpTo l pos →
      SortedUpTo (selectionLoop l.length n pos l) (l.length - 1) := by
  intro n
  induction n with
  | zero =>
    intro pos l hn h
    have : l.length - 1 = pos := by omega
    rw [this]
    exact h
  | succ n ih =>
    intro pos l hn h
    unfold selectionLoop
    have hstep := selection_step_sorted l pos (by omega) h
    simp only []
    generalize hl1 : (if minLoop l (l.length - (pos + 1)) (pos + 1) pos ≠ pos then
        swap l pos (minLoop l (l.length - (pos + 1)) (pos + 1) pos) else l) = l1 at hstep
    have hlen1 : l1.length = l.length := by
      rw [← hl1]
      split
      · exact length_swap _ _ _
      · rfl
    have := ih (pos + 1) l1 (by omega) hstep
    rw [hlen1] at this
    exact this

theorem selectionLoop_nil : ∀ (n pos : Nat), selectionLoop 0 n pos [] = [] := by
  intro n
  induction n with
  | zero => intro pos; rfl
  | succ n ih =>
    intro pos
    unfold selectionLoop
    simp only [Nat.zero_sub, minLoop, ne_eq, not_true_eq_false, if_false]
    exact ih _

theorem selectionSort_sortedUpTo (bids : List Bid) (hsize : bids.length < 2 ^ 64) :
    SortedUpTo (selectionSort bids) (bids.length - 1) := by
  unfold selectionSort selectionBound
  by_cases h0 : bids.length = 0
  · intro i j hij hi hj
    omega
  · have hfuel : (bids.length + 2 ^ 64 - 1) % 2 ^ 64 = bids.length - 1 := by omega
    simp only [hfuel]
    exact selectionLoop_sorted (bids.length - 1) 0 bids (by omega) (fun i j _ hi _ => by omega)

theorem sameOutside_refl (l : List Bid) (b e : Int) : SameOutside l l b e :=
  ⟨rfl, fun _ _ => rfl⟩

theorem rangePres_refl (l : List Bid) (b e : Int) : RangePres l l b e :=
  fun _ h => h

theorem swap_sameOutside (l : List Bid) (b e : Int) (i j : Nat)
    (hi1 : b ≤ (i : Int)) (hi2 : (i : Int) ≤ e) (hj1 : b ≤ (j : Int)) (hj2 : (j : Int) ≤ e)
    (he : e < (l.length : Int)) : SameOutside l (swap l i j) b e := by
  refine ⟨length_swap _ _ _, ?_⟩
  intro k hk
  rw [nth_swap l i j k (by omega) (by omega)]
  have h1 : ¬ k = j := by omega
  have h2 : ¬ k = i := by omega
  rw [if_neg h1, if_neg h2]

theorem swap_rangePres (l : List Bid) (b e : Int) (i j : Nat)
    (hi1 : b ≤ (i : Int)) (hi2 : (i : Int) ≤ e) (hj1 : b ≤ (j : Int)) (hj2 : (j : Int) ≤ e)
    (he : e < (l.length : Int)) : RangePres l (swap l i j) b e := by
  intro P hP k hk1 hk2
  rw [nth_swap l i j k (by omega) (by omega)]
  by_cases h1 : k = j
  · rw [if_pos h1]
    exact hP i hi1 hi2
  · rw [if_neg h1]
    by_cases h2 : k = i
    · rw [if_pos h2]
      exact hP j hj1 hj2
    · rw [if_neg h2]
      exact hP k hk1 hk2

theorem sameOutside_trans (l1 l2 l3 : List Bid) (b e : Int) (h12 : SameOutside l1 l2 b e)
    (h23 : SameOutside l2 l3 b e) : SameOutside l1 l3 b e :=
  ⟨h23.1.trans h12.1, fun k hk => (h23.2 k hk).trans (h12.2 k hk)⟩

theorem rangePres_trans (l1 l2 l3 : List Bid) (b e : Int) (h12 : RangePres l1 l2 b e)
    (h23 : RangePres l2 l3 b e) : RangePres l1 l3 b e :=
  fun P hP => h23 P (h12 P hP)

theorem partitionLoop_spec (pivot : String) (b e : Int) (hb : 0 ≤ b) :
    ∀ (n : Nat) (j low : Int) (l : List Bid), j + n = e → b ≤ j → e < (l.length : Int) →
      LoopInv pivot l b low j →
      LoopInv pivot (partitionLoop pivot n j low l).2 b (partitionLoop pivot n j low l).1 e ∧
        SameOutside l (partitionLoop pivot n j low l).2 b (e - 1) ∧
        RangePres l (partitionLoop pivot n j low l).2 b (e - 1) := by
  intro n
  induction n with
  | zero =>
    intro j low l hj _ _ hinv
    have : j = e := by omega
    subst this
    exact ⟨hinv, sameOutside_refl _ _ _, rangePres_refl _ _ _⟩
  | succ n ih =>
    intro j low l hj hbj he hinv
    obtain ⟨h1, h2, h3, h4⟩ := hinv
    unfold partitionLoop
    by_cases hle : (nth l j.toNat).title.data ≤ pivot.data
    · rw [if_pos hle]
      have hi1 : b ≤ (((low + 1).toNat : Nat) : Int) := by omega
      have hi2 : (((low + 1).toNat : Nat) : Int) ≤ e - 1 := by omega
      have hj1 : b ≤ ((j.toNat : Nat) : Int) := by omega
      have hj2 : ((j.toNat : Nat) : Int) ≤ e - 1 := by omega
      have hlen := length_swap l (low + 1).toNat j.toNat
      have hinv1 : LoopInv pivot (swap l (low + 1).toNat j.toNat) b (low + 1) (j + 1) := by
        refine ⟨by omega, by omega, ?_, ?_⟩
        · intro k hk1 hk2
          rw [nth_swap l _ _ k (by omega) (by omega)]
          by_cases hkj : k = j.toNat
          · rw [if_pos hkj]
            have : (low + 1).toNat = j.toNat := by omega
            rw [this]
            exact hle
          · rw [if_neg hkj]
            by_cases hki : k = (low + 1).toNat
            · rw [if_pos hki]
              exact hle
            · rw [if_neg hki]
              exact h3 k hk1 (by omega)
        · intro k hk1 hk2
          rw [nth_swap l _ _ k (by omega) (by omega)]
          by_cases hkj : k = j.toNat
          · rw [if_pos hkj]
            exact h4 _ (by omega) (by omega)
          · rw [if_neg hkj]
            have hki : ¬ k = (low + 1).toNat := by omega
            rw [if_neg hki]
            exact h4 k (by omega) (by omega)
      obtain ⟨r1, r2, r3⟩ := ih (j + 1) (low + 1) (swap l (low + 1).toNat j.toNat)
        (by omega) (by omega) (by omega) hinv1
      refine ⟨r1, ?_, ?_⟩
      · exact sameOutside_trans _ _ _ _ _
          (swap_sameOutside l b (e - 1) _ _ hi1 hi2 hj1 hj2 (by omega)) r2
      · exact rangePres_trans _ _ _ _ _
          (swap_rangePres l b (e - 1) _ _ hi1 hi2 hj1 hj2 (by omega)) r3
    · rw [if_neg hle]
      have hinv1 : LoopInv pivot l b low (j + 1) := by
        refine ⟨h1, by omega, h3, ?_⟩
        intro k hk1 hk2
        by_cases hkj : k = j.toNat
        · rw [hkj]
          exact not_le.mp hle
        · exact h4 k hk1 (by omega)
      exact ih (j + 1) low l (by omega) (by omega) he hinv1

theorem partition_spec (l : List Bid) (b e : Int) (hb : 0 ≤ b) (hbe : b ≤ e)
    (he : e < (l.length : Int)) :
    Partitioned (partition l b e).2 b (partition l b e).1 e ∧
      SameOutside l (partition l b e).2 b e ∧ RangePres l (partition l b e).2 b e ∧
      (nth (partition l b e).2 (partition l b e).1.toNat).title = (nth l e.toNat).title := by
  have hinv0 : LoopInv (nth l e.toNat).title l b (b - 1) b :=
    ⟨le_refl _, by omega, fun k h1 h2 => by omega, fun k h1 h2 => by omega⟩
  obtain ⟨⟨r1, r2, r3, r4⟩, ⟨s1, s2⟩, p1⟩ :=
    partitionLoop_spec (nth l e.toNat).title b e hb (e - b).toNat b (b - 1) l (by omega)
      (le_refl _) he hinv0
  unfold partition
  simp only []
  generalize partitionLoop (nth l e.toNat).title (e - b).toNat b (b - 1) l = res at *
  obtain ⟨low, l1⟩ := res
  simp only [] at r1 r2 r3 r4 s1 s2 p1 ⊢
  have hm1 : b ≤ (((low + 1).toNat : Nat) : Int) := by omega
  have hm2 : (((low + 1).toNat : Nat) : Int) ≤ e := by omega
  have he1 : b ≤ ((e.toNat : Nat) : Int) := by omega
  have he2 : ((e.toNat : Nat) : Int) ≤ e := by omega
  have hl1 : e < (l1.length : Int) := by omega
  have hpiv : nth l1 e.toNat = nth l e.toNat := s2 e.toNat (by omega)
  have hmid : nth (swap l1 (low + 1).toNat e.toNat) (low + 1).toNat = nth l e.toNat := by
    rw [nth_swap l1 _ _ _ (by omega) (by omega)]
    by_cases h : (low + 1).toNat = e.toNat
    · rw [if_pos h, h, hpiv]
    · rw [if_neg h, if_pos rfl, hpiv]
  refine ⟨⟨by omega, by omega, ?_, ?_⟩, ?_, ?_, ?_⟩
  · intro k hk1 hk2
    rw [hmid, nth_swap l1 _ _ k (by omega) (by omega)]
    have h1 : ¬ k = e.toNat := by omega
    have h2 : ¬ k = (low + 1).toNat := by omega
    rw [if_neg h1, if_neg h2]
    exact r3 k hk1 (by omega)
  · intro k hk1 hk2
    rw [hmid, nth_swap l1 _ _ k (by omega) (by omega)]
    have h2 : ¬ k = (low + 1).toNat := by omega
    by_cases h1 : k = e.toNat
    · rw [if_pos h1]
      exact r4 _ (by omega) (by omega)
    · rw [if_neg h1, if_neg h2]
      exact r4 k (by omega) (by omega)
  · have hs : SameOutside l l1 b e := ⟨s1, fun k hk => s2 k (by omega)⟩
    exact sameOutside_trans _ _ _ _ _ hs (swap_sameOutside l1 b e _ _ hm1 hm2 he1 he2 hl1)
  · have hp : RangePres l l1 b e := by
      intro P hP k hk1 hk2
      by_cases hke : (k : Int) ≤ e - 1
      · exact p1 P (fun k2 h1 h2 => hP k2 h1 (by omega)) k hk1 hke
      · rw [s2 k (by omega)]
        exact hP k hk1 hk2
    exact rangePres_trans _ _ _ _ _ hp (swap_rangePres l1 b e _ _ hm1 hm2 he1 he2 hl1)
  · rw [hmid]

theorem quickSortFuel_spec : ∀ (fuel : Nat) (l : List Bid) (b e : Int), 0 ≤ b →
    e < (l.length : Int) → (e - b).toNat < fuel →
      ∃ r, quickSortFuel fuel l b e = some r ∧ SameOutside l r b e ∧ RangePres l r b e ∧
        SortedRange r b e := by
  intro fuel
  induction fuel with
  | zero => intro l b e _ _ hf; omega
  | succ fuel ih =>
    intro l b e hb he hf
    unfold quickSortFuel
    by_cases hbe : b ≥ e
    · rw [if_pos hbe]
      exact ⟨l, rfl, sameOutside_refl _ _ _, rangePres_refl _ _ _,
        fun i j h1 h2 h3 => by omega⟩
    · rw [if_neg hbe]
      obtain ⟨⟨m1, m2, m3, m4⟩, ⟨s1, s2⟩, p1, _⟩ := partition_spec l b e hb (by omega) he
      simp only []
      generalize partition l b e = res at *
      obtain ⟨mid, l1⟩ := res
      simp only [] at m1 m2 m3 m4 s1 s2 p1 ⊢
      obtain ⟨l2, hq2, ⟨t1, t2⟩, p2, o2⟩ := ih l1 b (mid - 1) hb (by omega) (by omega)
      rw [hq2]
      simp only []
      obtain ⟨r, hq3, ⟨u1, u2⟩, p3, o3⟩ := ih l2 (mid + 1) e (by omega) (by omega) (by omega)
      refine ⟨r, hq3, ⟨by omega, ?_⟩, ?_, ?_⟩
      · intro k hk
        rw [u2 k (by omega), t2 k (by omega), s2 k hk]
      · intro P hP k hk1 hk2
        have hP1 := p1 P hP
        have hP2 : ∀ k : Nat, b ≤ (k : Int) → (k : Int) ≤ e → P (nth l2 k) := by
          intro k2 h1 h2
          by_cases hm : (k2 : Int) ≤ mid - 1
          · exact p2 P (fun k3 h3 h4 => hP1 k3 h3 (by omega)) k2 h1 hm
          · rw [t2 k2 (by omega)]
            exact hP1 k2 h1 h2
        by_cases hm : mid + 1 ≤ (k : Int)
        · exact p3 P (fun k3 h3 h4 => hP2 k3 (by omega) h4) k hm hk2
        · rw [u2 k (by omega)]
          exact hP2 k hk1 hk2
      · have hmid : nth r mid.toNat = nth l1 mid.toNat := by
          rw [u2 mid.toNat (by omega), t2 mid.toNat (by omega)]
        have hA : ∀ k : Nat, b ≤ (k : Int) → (k : Int) < mid →
            (nth r k).title.data ≤ (nth l1 mid.toNat).title.data := by
          intro k h1 h2
          rw [u2 k (by omega)]
          exact p2 (fun x => x.title.data ≤ (nth l1 mid.toNat).title.data)
            (fun k3 h3 h4 => m3 k3 h3 (by omega)) k h1 (by omega)
        have hB : ∀ k : Nat, mid < (k : Int) → (k : Int) ≤ e →
            (nth l1 mid.toNat).title.data < (nth r k).title.data := by
          intro k h1 h2
          refine p3 (fun x => (nth l1 mid.toNat).title.data < x.title.data) ?_ k (by omega) h2
          intro k3 h3 h4
          rw [t2 k3 (by omega)]
          exact m4 k3 (by omega) h4
        intro i j hi hij hj
        by_cases hjm : (j : Int) < mid
        · rw [u2 i (by omega), u2 j (by omega)]
          exact o2 i j hi hij (by omega)
        · by_cases him : mid < (i : Int)
          · exact o3 i j (by omega) hij hj
          · by_cases hjm2 : (j : Int) = mid
            · have : j = mid.toNat := by omega
              rw [this, hmid]
              exact hA i hi (by omega)
            · by_cases him2 : (i : Int) = mid
              · have : i = mid.toNat := by omega
                rw [this, hmid]
                exact le_of_lt (hB j (by omega) hj)
              · exact le_trans (hA i hi (by omega)) (le_of_lt (hB j (by omega) hj))

theorem partitionLoop_perm (pivot : String) : ∀ (n : Nat) (j low : Int) (l : List Bid),
    (partitionLoop pivot n j low l).2.Perm l := by
  intro n
  induction n with
  | zero => intro j low l; exact List.Perm.refl _
  | succ n ih =>
    intro j low l
    unfold partitionLoop
    split
    · exact (ih _ _ _).trans (swap_perm _ _ _)
    · exact ih _ _ _

theorem partition_perm (l : List Bid) (b e : Int) : (partition l b e).2.Perm l := by
  unfold partition
  exact (swap_perm _ _ _).trans (partitionLoop_perm _ _ _ _ _)

theorem quickSortFuel_perm : ∀ (fuel : Nat) (l : List Bid) (b e : Int) (r : List Bid),
    quickSortFuel fuel l b e = some r → r.Perm l := by
  intro fuel
  induction fuel with
  | zero => intro l b e r h; simp [quickSortFuel] at h
  | succ fuel ih =>
    intro l b e r h
    unfold quickSortFuel at h
    by_cases hbe : b ≥ e
    · rw [if_pos hbe] at h
      cases h
      exact List.Perm.refl _
    · rw [if_neg hbe] at h
      simp only [] at h
      cases h2 : quickSortFuel fuel (partition l b e).2 b ((partition l b e).1 - 1) with
      | none => rw [h2] at h; cases h
      | some l2 =>
        rw [h2] at h
        exact ((ih _ _ _ _ h).trans (ih _ _ _ _ h2)).trans (partition_perm l b e)

theorem nth_eq_getElem (l : List Bid) (i : Nat) (h : i < l.length) : nth l i = l[i] := by
  unfold nth
  exact List.getD_eq_getElem l _ h

theorem title_le_of_data_le (a b : Bid) (h : a.title.data ≤ b.title.data) : a.title ≤ b.title :=
  String.le_iff_toList_le.mpr h

/-! ## Sorting: the properties -/

/-- For every non-empty vector of bids (its length a `size_t`), the result of `selectionSort`
has the length of the input and is ordered by title: `result[i].title <= result[i+1].title`
for every pair of adjacent indices. -/
theorem selectionSort_ordered_nonempty (bids : List Bid) (hpos : 0 < bids.length)
    (hsize : bids.length < 2 ^ 64) :
    ∃ r, selectionSort bids = r ∧ r.length = bids.length ∧
      ∀ (i : Nat) (h : i + 1 < r.length), (r[i]).title ≤ (r[i + 1]).title := by
  have _ := hpos
  have hlen : (selectionSort bids).length = bids.length := selectionLoop_length _ _ _ _
  have hs := selectionSort_sortedUpTo bids hsize
  generalize selectionSort bids = r at hlen hs
  refine ⟨r, rfl, hlen, ?_⟩
  intro i h
  have hi := hs i (i + 1) (by omega) (by omega) h
  rw [nth_eq_getElem _ i (by omega), nth_eq_getElem _ (i + 1) h] at hi
  exact title_le_of_data_le _ _ hi

/-- C5, evaluated at the empty vector, which the claim includes: the bound `size - 1` of the
outer loop of `selectionSort` is computed in `size_t` and is `2^64 - 1` there, not `-1`, so
the loop condition `pos < size - 1` holds from `pos = 0` on and the call makes `2^64 - 1`
iterations before it returns. -/
theorem C5_selectionSort_empty_vector_bound :
    selectionBound ([] : List Bid).length = 18446744073709551615 ∧
      (0 : Nat) < selectionBound ([] : List Bid).length := by
  decide

/-- C6: for every vector of `n` bids (`n` an `int`), the call `quickSort(bids, 0, n - 1)`
returns, and the vector then has the length of the input and is ordered by title:
`result[i].title <= result[i+1].title` for every pair of adjacent indices. -/
theorem C6_quickSort_ordered (bids : List Bid) (hsize : bids.length < 2 ^ 31) :
    ∃ r, quickSort bids 0 ((bids.length : Int) - 1) = some r ∧ r.length = bids.length ∧
      ∀ (i : Nat) (h : i + 1 < r.length), (r[i]).title ≤ (r[i + 1]).title := by
  have _ := hsize
  obtain ⟨r, h1, ⟨h2, _⟩, _, h4⟩ := quickSortFuel_spec
    (((bids.length : Int) - 1 - 0).toNat + 1) bids 0 ((bids.length : Int) - 1)
    (le_refl _) (by omega) (by omega)
  refine ⟨r, h1, h2, ?_⟩
  intro i h
  have hs := h4 i (i + 1) (by omega) (by omega) (by omega)
  rw [nth_eq_getElem _ i (by omega), nth_eq_getElem _ (i + 1) h] at hs
  exact title_le_of_data_le _ _ hs

set_option maxRecDepth 100000 in
/-- C6, at an instance: the five sample bids, with the sorted vector computed. -/
theorem C6_quickSort_ordered_witness :
    quickSort sampleBids 0 4 =
        some [mkBid "3" "a", mkBid "4" "b", mkBid "2" "c", mkBid "5" "c", mkBid "1" "d"] ∧
      ∃ r, quickSort sampleBids 0 ((sampleBids.length : Int) - 1) = some r ∧
        r.length = sampleBids.length ∧
        ∀ (i : Nat) (h : i + 1 < r.length), (r[i]).title ≤ (r[i + 1]).title :=
  ⟨by decide, C6_quickSort_ordered sampleBids (by decide)⟩

/-- For every non-empty vector of bids, the result of `selectionSort` is a permutation of the
input: the same records with the same multiplicities, hence the same length and the same
identifiers with the same multiplicities. -/
theorem selectionSort_perm_nonempty (bids : List Bid) (hpos : 0 < bids.length) :
    (selectionSort bids).Perm bids ∧ (selectionSort bids).length = bids.length ∧
      ((selectionSort bids).map Bid.bidId).Perm (bids.map Bid.bidId) := by
  have _ := hpos
  have hp : (selectionSort bids).Perm bids := selectionLoop_perm _ _ _ _
  exact ⟨hp, hp.length_eq, hp.map _⟩

/-- C7, evaluated: the number of iterations of the outer loop of `selectionSort` is `size - 1`
for the sizes 1, 2 and 5, and `2^64 - 1` for size 0: on the empty vector the call does not
come to an end in any run, so it yields no permutation of its input. -/
theorem C7_selectionSort_iterations :
    selectionBound 1 = 0 ∧ selectionBound 2 = 1 ∧ selectionBound 5 = 4 ∧
      selectionBound 0 = 2 ^ 64 - 1 := by
  decide

/-- C8: for every vector of bids and indices `begin` and `end` within it, the call
`quickSort(bids, begin, end)` returns, and the vector then is a permutation of the input:
the same records with the same multiplicities, hence the same length and the same
identifiers with the same multiplicities. -/
theorem C8_quickSort_perm (bids : List Bid) (begin end_ : Int)
    (hb1 : 0 ≤ begin) (hb2 : begin < (bids.length : Int))
    (he1 : 0 ≤ end_) (he2 : end_ < (bids.length : Int)) :
    ∃ r, quickSort bids begin end_ = some r ∧ r.Perm bids ∧ r.length = bids.length ∧
      (r.map Bid.bidId).Perm (bids.map Bid.bidId) := by
  have _ := hb2
  have _ := he1
  obtain ⟨r, h1, _, _, _⟩ := quickSortFuel_spec ((end_ - begin).toNat + 1) bids begin end_
    hb1 he2 (by omega)
  have hp := quickSortFuel_perm _ _ _ _ _ h1
  exact ⟨r, h1, hp, hp.length_eq, hp.map _⟩

set_option maxRecDepth 100000 in
/-- C8, at an instance: the range from 1 to 3 of the five sample bids, with the result
computed. -/
theorem C8_quickSort_perm_witness :
    quickSort sampleBids 1 3 =
        some [mkBid "1" "d", mkBid "3" "a", mkBid "4" "b", mkBid "2" "c", mkBid "5" "c"] ∧
      ∃ r, quickSort sampleBids 1 3 = some r ∧ r.Perm sampleBids ∧
        r.length = sampleBids.length ∧ (r.map Bid.bidId).Perm (sampleBids.map Bid.bidId) :=
  ⟨by decide, C8_quickSort_perm sampleBids 1 3 (by decide) (by decide) (by decide) (by decide)⟩

/-! ## The loader: the properties -/

theorem loadLoop_wellFormed (atof : String → Rat) : ∀ (pre : List Row) (acc : List Bid)
    (rest : List Row), (∀ row ∈ pre, readBid atof row ≠ none) →
      loadLoop atof (pre ++ rest) acc =
        loadLoop atof rest (acc ++ pre.filterMap (readBid atof)) := by
  intro pre
  induction pre with
  | nil => intro acc rest _; simp
  | cons row pre ih =>
    intro acc rest h
    cases hr : readBid atof row with
    | none => exact absurd hr (h row (List.mem_cons_self _ _))
    | some bid =>
      simp only [List.cons_append, loadLoop, hr, List.append_eq]
      rw [ih _ _ fun r hr2 => h r (List.mem_cons_of_mem _ hr2)]
      simp [List.filterMap_cons, hr]

theorem loadBidsTable_wellFormed (atof : String → Rat) : ∀ (pre : List Row) (t : HashTable)
    (rest : List Row), (∀ row ∈ pre, readBid atof row ≠ none) →
      loadBidsTable atof (pre ++ rest) t =
        (run t ((pre.filterMap (readBid atof)).map Op.insert)).bind
          fun t1 => loadBidsTable atof rest t1 := by
  intro pre
  induction pre with
  | nil => intro t rest _; simp [run]
  | cons row pre ih =>
    intro t rest h
    cases hr : readBid atof row with
    | none => exact absurd hr (h row (List.mem_cons_self _ _))
    | some bid =>
      simp only [List.cons_append, loadBidsTable, hr, List.filterMap_cons, List.map_cons, run,
        step, List.append_eq]
      cases hi : t.Insert bid with
      | none => simp
      | some t1 =>
        simp only [Option.some_bind]
        exact ih t1 rest fun r hr2 => h r (List.mem_cons_of_mem _ hr2)

set_option maxRecDepth 100000 in
/-- C9, refuted as stated: with a malformed row followed by a well-formed row (N = 1), both
loaders store no record: the vector is empty and the table is the empty table. -/
theorem C9_rows_after_malformed_not_loaded :
    readBid atofZero badRow = none ∧
      readBid atofZero (goodRow "7" "a") =
        some { bidId := "7", title := "a", fund := "General Fund", amount := 0 } ∧
      loadBids atofZero [badRow, goodRow "7" "a"] = [] ∧
      loadBidsTable atofZero [badRow, goodRow "7" "a"] (HashTable.new 179) =
        some (HashTable.new 179) := by
  decide

/-- C9, amended: when every row of `pre` is well-formed and the row `bad` is malformed, both
loaders store exactly the records of the rows of `pre`, in order, whatever rows `post` follow:
the vector returned is the list of these records, and the table is the one reached by
`Insert` of these records; the malformed row and the rows after it are not loaded. -/
theorem C9_load_stops_at_malformed (atof : String → Rat) (pre post : List Row) (bad : Row)
    (t : HashTable) (hpre : ∀ row ∈ pre, readBid atof row ≠ none)
    (hbad : readBid atof bad = none) :
    loadBids atof (pre ++ bad :: post) = pre.filterMap (readBid atof) ∧
      (loadBids atof (pre ++ bad :: post)).length = pre.length ∧
      loadBidsTable atof (pre ++ bad :: post) t =
        run t ((pre.filterMap (readBid atof)).map Op.insert) := by
  have h1 : loadBids atof (pre ++ bad :: post) = pre.filterMap (readBid atof) := by
    unfold loadBids
    rw [loadLoop_wellFormed atof pre [] _ hpre]
    simp [loadLoop, hbad]
  have hlen : ∀ (l : List Row), (∀ row ∈ l, readBid atof row ≠ none) →
      (l.filterMap (readBid atof)).length = l.length := by
    intro l
    induction l with
    | nil => intro _; rfl
    | cons row l ih =>
      intro h
      cases hr : readBid atof row with
      | none => exact absurd hr (h row (List.mem_cons_self _ _))
      | some bid =>
        simp only [List.filterMap_cons, hr, List.length_cons]
        rw [ih fun r hr2 => h r (List.mem_cons_of_mem _ hr2)]
  refine ⟨h1, by rw [h1, hlen pre hpre], ?_⟩
  rw [loadBidsTable_wellFormed atof pre t _ hpre]
  cases run t ((pre.filterMap (readBid atof)).map Op.insert) with
  | none => rfl
  | some t1 => simp [loadBidsTable, hbad]

set_option maxRecDepth 100000 in
/-- C9 amended, at an instance: one well-formed row, the malformed row, one well-formed
row: one record is stored, that of the first row. -/
theorem C9_load_stops_at_malformed_witness :
    loadBids atofZero ([goodRow "7" "a"] ++ badRow :: [goodRow "8" "b"]) =
        [goodRow "7" "a"].filterMap (readBid atofZero) ∧
      (loadBids atofZero ([goodRow "7" "a"] ++ badRow :: [goodRow "8" "b"])).length =
        [goodRow "7" "a"].length ∧
      loadBidsTable atofZero ([goodRow "7" "a"] ++ badRow :: [goodRow "8" "b"])
          (HashTable.new 179) =
        run (HashTable.new 179) (([goodRow "7" "a"].filterMap (readBid atofZero)).map Op.insert) :=
  C9_load_stops_at_malformed atofZero [goodRow "7" "a"] [goodRow "8" "b"] badRow
    (HashTable.new 179) (by decide) (by decide)

/-! ## Hash table: enumeration, duplicates, removal and keys -/

set_option maxRecDepth 100000 in
/-- C12, evaluated: in the table of size 179, after `Insert` of 179 and of 358 and
`Remove("179")`, the record 358 was inserted and not removed and `Search("358")` returns
it, but `PrintAll` writes no line at all: it skips the bucket because the head is marked
unused, and with it the chain. -/
theorem C12_printAll_skips_chain_of_removed_head :
    ((chainedTable.Remove "179").bind fun t => t.PrintAll) = some [] ∧
      ((chainedTable.Remove "179").bind fun t => t.Search "358") = some (mkBid "358" "b") ∧
      run (HashTable.new 179) [Op.insert (mkBid "179" "a"), Op.insert (mkBid "358" "b")] =
        some chainedTable ∧
      chainedTable.PrintAll = some [⟨mkBid "179" "a", 0⟩, ⟨mkBid "358" "b", 0⟩] := by
  decide

set_option maxRecDepth 100000 in
/-- C17: `selectionSort` is not stable.  There is an input with two different records `a`
before `b` of equal title that come out as `b` before `a`: on the bids 1, 2, 3 with titles
b, b, a the result is 3, 2, 1. -/
theorem C17_selectionSort_not_stable :
    ∃ (bids : List Bid) (a b : Bid), a ≠ b ∧ a.title = b.title ∧
      bids[0]? = some a ∧ bids[1]? = some b ∧
      (selectionSort bids)[1]? = some b ∧ (selectionSort bids)[2]? = some a ∧
      selectionSort bids = [mkBid "3" "a", mkBid "2" "b", mkBid "1" "b"] :=
  ⟨[mkBid "1" "b", mkBid "2" "b", mkBid "3" "a"], mkBid "1" "b", mkBid "2" "b", by decide⟩

theorem hash_congr (t t1 : HashTable) (h : t1.tableSize = t.tableSize) :
    HashTable.hash t1 = HashTable.hash t := by
  funext k
  simp [HashTable.hash, h]

theorem updateAt_index_inv (Q : Nat → Node → Prop) (t : HashTable) (hwf : WF t) (key : Nat)
    (f : Node → Node) (hk : key < t.tableSize)
    (hf : ∀ node, t.nodes[key]? = some node → Q key node → Q key (f node))
    (h : ∀ i node, t.nodes[i]? = some node → Q i node) :
    ∃ t1, updateAt t key f = some t1 ∧ WF t1 ∧ t1.tableSize = t.tableSize ∧
      ∀ i node, t1.nodes[i]? = some node → Q i node := by
  obtain ⟨t1, h1, h2, h3, h4⟩ := updateAt_WF t hwf key f hk
  refine ⟨t1, h1, h2, h3, ?_⟩
  intro i node hnode
  have hlen : key < t.nodes.length := by rw [hwf.1]; exact hk
  rw [h4, List.getElem?_set] at hnode
  by_cases hki : key = i
  · subst hki
    rw [if_pos rfl, if_pos hlen] at hnode
    cases hnode
    have hget : t.nodes[key]? = some (t.nodes.getD key {}) := by
      rw [List.getD_eq_getElem?_getD, List.getElem?_eq_getElem hlen]
      rfl
    exact hf _ hget (h key _ hget)
  · rw [if_neg hki] at hnode
    exact h i node hnode

theorem insNode_home (h : Int → Nat) (b : Bid) (node : Node)
    (hn : Home h (h (atoi b.bidId)) node) :
    Home h (h (atoi b.bidId)) (insNode (h (atoi b.bidId)) b node) := by
  unfold insNode
  by_cases hk : node.key = UINT_MAX
  · rw [if_pos hk]
    exact ⟨fun _ => ⟨rfl, rfl⟩, hn.2⟩
  · rw [if_neg hk]
    refine ⟨hn.1, ?_⟩
    intro n hmem
    rcases List.mem_append.mp hmem with h1 | h1
    · exact hn.2 n h1
    · rw [List.mem_singleton.mp h1]
      exact ⟨rfl, rfl⟩

theorem remNode_home (h : Int → Nat) (i : Nat) (y : String) (node : Node) (hn : Home h i node) :
    Home h i (remNode y node) := by
  unfold remNode
  by_cases hk : node.bid.bidId = y
  · rw [if_pos hk]
    exact ⟨fun hne => absurd rfl hne, hn.2⟩
  · rw [if_neg hk]
    exact ⟨hn.1, fun n hmem => hn.2 n (unlink_subset y n _ hmem)⟩

theorem step_home (t : HashTable) (hwf : WF t) (op : Op)
    (h : ∀ i node, t.nodes[i]? = some node → Home t.hash i node) :
    ∃ t1, step t op = some t1 ∧ WF t1 ∧ t1.tableSize = t.tableSize ∧
      ∀ i node, t1.nodes[i]? = some node → Home t1.hash i node := by
  have key : ∀ (k : Nat) (f : Node → Node), k < t.tableSize →
      (∀ node, Home t.hash k node → Home t.hash k (f node)) →
      ∃ t1, updateAt t k f = some t1 ∧ WF t1 ∧ t1.tableSize = t.tableSize ∧
        ∀ i node, t1.nodes[i]? = some node → Home t1.hash i node := by
    intro k f hk hf
    obtain ⟨t1, h1, h2, h3, h4⟩ :=
      updateAt_index_inv (Home t.hash) t hwf k f hk (fun node _ hq => hf node hq) h
    refine ⟨t1, h1, h2, h3, ?_⟩
    rw [hash_congr t t1 h3]
    exact h4
  cases op with
  | insert b =>
    simp only [step, Insert_eq]
    exact key _ _ (hash_lt t hwf.2 _) fun node hq => insNode_home t.hash b node hq
  | remove y =>
    simp only [step, Remove_eq]
    obtain ⟨t1, h1, h2, h3, h4⟩ := key _ (remNode y) (hash_lt t hwf.2 (atoi y))
      fun node hq => remNode_home t.hash _ y node hq
    exact ⟨markDelete (headMatch t y) t1, map_markDelete _ _ t1 h1, h2, h3, h4⟩

theorem run_home (ops : List Op) : ∀ (t : HashTable), WF t →
    (∀ i node, t.nodes[i]? = some node → Home t.hash i node) →
    ∃ t1, run t ops = some t1 ∧ WF t1 ∧ t1.tableSize = t.tableSize ∧
      ∀ i node, t1.nodes[i]? = some node → Home t1.hash i node := by
  induction ops with
  | nil => intro t hwf h; exact ⟨t, rfl, hwf, rfl, h⟩
  | cons op ops ih =>
    intro t hwf h
    obtain ⟨t1, h1, h2, h3, h4⟩ := step_home t hwf op h
    obtain ⟨t2, h5, h6, h7, h8⟩ := ih t1 h2 h4
    exact ⟨t2, by simp [run, h1, h5], h6, by rw [h7, h3], h8⟩

theorem new_getElem? (size i : Nat) (node : Node)
    (h : (HashTable.new size).nodes[i]? = some node) : node = {} := by
  have hmem := List.getElem?_mem h
  simp only [HashTable.new] at hmem
  exact (List.mem_replicate.mp hmem).2

/-- On runs that never apply `delete` to an element of the vector: in a table with
`size > 0` buckets reached by calls of `Insert` and `Remove`, every node of every bucket `i`
whose key is not `UINT_MAX` has key `i`, and `i` is `hash(atoi(bidId))` of its record. -/
theorem key_is_home_bucket_defined (size : Nat) (hpos : 0 < size) (ops : List Op)
    (t : HashTable) (hrun : run (HashTable.new size) ops = some t)
    (hdef : t.undefinedDelete = false) :
    ∀ (i : Nat) (node : Node), t.nodes[i]? = some node →
      (node.key ≠ UINT_MAX → node.key = i ∧ t.hash (atoi node.bid.bidId) = i) ∧
      ∀ n ∈ node.next, n.key ≠ UINT_MAX → n.key = i ∧ t.hash (atoi n.bid.bidId) = i := by
  have _ := hdef
  have h0 : ∀ i node, (HashTable.new size).nodes[i]? = some node →
      Home (HashTable.new size).hash i node := by
    intro i node h
    rw [new_getElem? size i node h]
    exact ⟨fun hne => absurd rfl hne, fun n hn => by cases hn⟩
  obtain ⟨t1, h1, _, _, h4⟩ := run_home ops (HashTable.new size) (WF_new size hpos) h0
  have ht : t = t1 := by
    rw [h1] at hrun
    cases hrun
    rfl
  rw [ht]
  exact fun i node hnode => ⟨(h4 i node hnode).1, fun n hn _ => (h4 i node hnode).2 n hn⟩

set_option maxRecDepth 100000 in
/-- C16, evaluated: in the table of size 179 as constructed, the head of bucket 0 is the
default node, whose `bidId` is empty, so `Remove("")` takes its head case and applies
`delete` to the first element of the vector, which is the whole bucket array.  The `Insert`
of the record 5 that follows then writes its key and record into released storage: the
behaviour is undefined, and the keys a later `PrintAll` shows are not those `Insert` wrote. -/
theorem C16_insert_after_undefined_delete :
    headMatch (HashTable.new 179) "" = true ∧
      (HashTable.new 179).hash (atoi "") = 0 ∧
      ((run (HashTable.new 179) [Op.remove ""]).map fun t => t.undefinedDelete) = some true ∧
      ((run (HashTable.new 179) [Op.remove "", Op.insert (mkBid "5" "a")]).map
        fun t => t.undefinedDelete) = some true := by
  decide

theorem Search_isSome (t : HashTable) (hwf : WF t) (x : String) : (t.Search x).isSome = true := by
  have hlen : t.hash (atoi x) < t.nodes.length := by rw [hwf.1]; exact hash_lt t hwf.2 _
  simp only [HashTable.Search, List.getElem?_eq_getElem hlen]
  split <;> rfl

/-- C19: in a table with `size > 0` buckets, after any sequence of `Insert` and `Remove`
calls, none of which fails, and for every identifier string `x` and every record `b`: the
index `hash(atoi(x))` is less than `tableSize`, which is `size` and the length of the vector,
so the calls `Insert(b)`, `Search(x)` and `Remove(x)` all succeed; and the index is the one
the same identifier has in the table as constructed, so that `Insert`, `Search` and `Remove`
of one identifier address the same bucket at all times. -/
theorem C19_bucket_index_in_range (size : Nat) (hpos : 0 < size) (ops : List Op) (x : String)
    (b : Bid) :
    ∃ t, run (HashTable.new size) ops = some t ∧
      t.tableSize = size ∧ t.nodes.length = size ∧
      t.hash (atoi x) < t.tableSize ∧ t.hash (atoi b.bidId) < t.tableSize ∧
      t.hash (atoi x) = (HashTable.new size).hash (atoi x) ∧
      (t.Insert b).isSome = true ∧ (t.Search x).isSome = true ∧ (t.Remove x).isSome = true := by
  obtain ⟨t, h1, hwf, h3⟩ := run_WF ops (HashTable.new size) (WF_new size hpos)
  have hsz : t.tableSize = size := h3
  obtain ⟨t1, hi, _, _⟩ := step_WF t hwf (Op.insert b)
  obtain ⟨t2, hr, _, _⟩ := step_WF t hwf (Op.remove x)
  simp only [step] at hi hr
  refine ⟨t, h1, hsz, by rw [hwf.1, hsz], hash_lt t hwf.2 _, hash_lt t hwf.2 _, ?_, ?_,
    Search_isSome t hwf x, ?_⟩
  · rw [hash_congr (HashTable.new size) t h3]
  · rw [hi]; rfl
  · rw [hr]; rfl

set_option maxRecDepth 100000 in
/-- C19, at an instance: table size 179, a non-numeric identifier after two calls, with the
indices of a negative and of an empty identifier computed. -/
theorem C19_bucket_index_in_range_witness :
    ((HashTable.new 179).hash (atoi "-5") = 121 ∧ (HashTable.new 179).hash (atoi "") = 0 ∧
        (HashTable.new 179).hash (atoi "abc") = 0) ∧
      ∃ t, run (HashTable.new 179) [Op.insert (mkBid "-5" "a"), Op.remove "abc"] = some t ∧
        t.tableSize = 179 ∧ t.nodes.length = 179 ∧
        t.hash (atoi "abc") < t.tableSize ∧ t.hash (atoi (mkBid "" "b").bidId) < t.tableSize ∧
        t.hash (atoi "abc") = (HashTable.new 179).hash (atoi "abc") ∧
        (t.Insert (mkBid "" "b")).isSome = true ∧ (t.Search "abc").isSome = true ∧
        (t.Remove "abc").isSome = true :=
  ⟨by decide, C19_bucket_index_in_range 179 (by decide) _ "abc" (mkBid "" "b")⟩

theorem unlink_absent (x : String) : ∀ (chain : List NodeData),
    (∀ n ∈ chain, n.bid.bidId ≠ x) → unlink x chain = chain := by
  intro chain
  induction chain with
  | nil => intro _; rfl
  | cons m rest ih =>
    intro h
    unfold unlink
    rw [if_neg (h m (List.mem_cons_self _ _)), ih fun n hn => h n (List.mem_cons_of_mem _ hn)]

theorem set_same (l : List Node) (i : Nat) (node : Node) (h : l[i]? = some node) :
    l.set i node = l := by
  apply List.ext_getElem?
  intro j
  rw [List.getElem?_set]
  by_cases hij : i = j
  · subst hij
    have hlen : i < l.length := by
      rcases Nat.lt_or_ge i l.length with h1 | h1
      · exact h1
      · rw [List.getElem?_eq_none h1] at h
        cases h
    rw [if_pos rfl, if_pos hlen, h]
  · rw [if_neg hij]

/-- When neither the head nor a chained node of the bucket of `x` has identifier `x`,
`Remove(x)` finds no node and returns the table unchanged. -/
theorem remove_absent_unchanged (t : HashTable) (x : String) (node : Node)
    (hnode : t.nodes[t.hash (atoi x)]? = some node) (hhead : node.bid.bidId ≠ x)
    (hchain : ∀ n ∈ node.next, n.bid.bidId ≠ x) :
    t.Remove x = some t := by
  simp only [HashTable.Remove, hnode, if_neg hhead, unlink_absent x _ hchain,
    Option.some.injEq]
  have hsame : t.nodes.set (t.hash (atoi x)) { node with next := node.next } = t.nodes :=
    set_same _ _ _ hnode
  cases t
  simp only [HashTable.mk.injEq, and_true] at hsame ⊢
  exact hsame

set_option maxRecDepth 100000 in
/-- C20, evaluated: in the table of size 179 as constructed, which holds no record,
`Remove("")` is not without effect: the default head of bucket 0 has the empty `bidId`, the
call takes its head case and applies `delete` to the first element of the vector, releasing
the storage of every bucket.  Likewise `Remove("179")` in the table that holds 179 as head
of bucket 0 takes the head case. -/
theorem C20_remove_takes_head_case :
    headMatch (HashTable.new 179) "" = true ∧
      ((HashTable.new 179).Remove "").map (fun t => t.undefinedDelete) = some true ∧
      (HashTable.new 179).Remove "" ≠ some (HashTable.new 179) ∧
      headMatch chainedTable "179" = true ∧
      (chainedTable.Remove "179").map (fun t => t.undefinedDelete) = some true := by
  decide

theorem findBid_append_absent (x : String) (rest : List NodeData) : ∀ (chain : List NodeData),
    (∀ n ∈ chain, n.bid.bidId ≠ x) → findBid x (chain ++ rest) = findBid x rest := by
  intro chain
  induction chain with
  | nil => intro _; rfl
  | cons m more ih =>
    intro h
    simp only [List.cons_append, findBid]
    rw [if_neg (h m (List.mem_cons_self _ _))]
    exact ih fun n hn => h n (List.mem_cons_of_mem _ hn)

theorem unlink_first (x : String) (n : NodeData) (post : List NodeData) (hn : n.bid.bidId = x) :
    ∀ (pre : List NodeData), (∀ m ∈ pre, m.bid.bidId ≠ x) →
      unlink x (pre ++ n :: post) = pre ++ post := by
  intro pre
  induction pre with
  | nil =>
    intro _
    simp only [List.nil_append, unlink]
    rw [if_pos hn]
  | cons m more ih =>
    intro h
    simp only [List.cons_append, unlink, List.append_eq]
    rw [if_neg (h m (List.mem_cons_self _ _)), ih fun k hk => h k (List.mem_cons_of_mem _ hk)]

theorem getElem?_lt (l : List Node) (i : Nat) (node : Node) (h : l[i]? = some node) :
    i < l.length := by
  rcases Nat.lt_or_ge i l.length with h1 | h1
  · exact h1
  · rw [List.getElem?_eq_none h1] at h
    cases h

theorem updateAt_of_getElem? (t : HashTable) (key : Nat) (f : Node → Node) (node : Node)
    (h : t.nodes[key]? = some node) :
    updateAt t key f = some ⟨t.nodes.set key (f node), t.tableSize, t.undefinedDelete⟩ := by
  simp only [updateAt, h]

theorem Search_of_getElem? (t : HashTable) (x : String) (node : Node)
    (h : t.nodes[t.hash (atoi x)]? = some node) :
    t.Search x =
      some (if node.bid.bidId = x then node.bid else (findBid x node.next).getD {}) := by
  simp only [HashTable.Search, h]
  split <;> rfl

/-- C13: let `t` be a table (with `0 < tableSize`, an `unsigned int`) whose bucket for the
identifier `x` holds no record with identifier `x`: no chained node has it, and the head
does not have it unless it is marked unused.  After `Insert(a)` and then `Insert(b)` of two
records with identifier `x`, both calls having succeeded, the bucket holds `a` and `b` as two
entries, `a` before `b`: when the head was unused, `a` is the head and `b` the last chained
node; otherwise `a` and `b` are the last two chained nodes, in this order.  `Search(x)` then
returns `a`. -/
theorem C13_duplicate_insert (t : HashTable) (hpos : 0 < t.tableSize)
    (hmax : t.tableSize ≤ UINT_MAX) (x : String) (a b : Bid) (ha : a.bidId = x)
    (hb : b.bidId = x) (node : Node) (hnode : t.nodes[t.hash (atoi x)]? = some node)
    (hhead : node.key ≠ UINT_MAX → node.bid.bidId ≠ x)
    (hchain : ∀ n ∈ node.next, n.bid.bidId ≠ x) :
    ∃ t1 t2, t.Insert a = some t1 ∧ t1.Insert b = some t2 ∧
      t2.nodes[t.hash (atoi x)]? = some
        (if node.key = UINT_MAX then
          { bid := a, key := t.hash (atoi x), next := node.next ++ [⟨b, t.hash (atoi x)⟩] }
        else
          { node with
            next := node.next ++ [⟨a, t.hash (atoi x)⟩, ⟨b, t.hash (atoi x)⟩] }) ∧
      t2.Search x = some a := by
  have hlen := getElem?_lt _ _ _ hnode
  have hkey : t.hash (atoi x) ≠ UINT_MAX := by
    have := hash_lt t hpos (atoi x)
    omega
  have hget1 : (t.nodes.set (t.hash (atoi x)) (insNode (t.hash (atoi x)) a node))[t.hash (atoi x)]? =
      some (insNode (t.hash (atoi x)) a node) := by
    rw [List.getElem?_set, if_pos rfl, if_pos hlen]
  have h1 : t.Insert a =
      some ⟨t.nodes.set (t.hash (atoi x)) (insNode (t.hash (atoi x)) a node), t.tableSize, t.undefinedDelete⟩ := by
    rw [Insert_eq, ha, updateAt_of_getElem? t _ _ node hnode]
  have h2 : HashTable.Insert
      ⟨t.nodes.set (t.hash (atoi x)) (insNode (t.hash (atoi x)) a node), t.tableSize, t.undefinedDelete⟩ b =
      some ⟨t.nodes.set (t.hash (atoi x))
        (insNode (t.hash (atoi x)) b (insNode (t.hash (atoi x)) a node)), t.tableSize, t.undefinedDelete⟩ := by
    rw [Insert_eq, hb]
    have hh : HashTable.hash
        ⟨t.nodes.set (t.hash (atoi x)) (insNode (t.hash (atoi x)) a node), t.tableSize, t.undefinedDelete⟩ (atoi x) =
        t.hash (atoi x) := rfl
    rw [hh, updateAt_of_getElem? _ _ _ _ hget1]
    simp only [List.set_set]
  have hget2 : (t.nodes.set (t.hash (atoi x))
      (insNode (t.hash (atoi x)) b (insNode (t.hash (atoi x)) a node)))[t.hash (atoi x)]? =
      some (insNode (t.hash (atoi x)) b (insNode (t.hash (atoi x)) a node)) := by
    rw [List.getElem?_set, if_pos rfl, if_pos hlen]
  refine ⟨_, _, h1, h2, ?_, ?_⟩
  · rw [hget2]
    by_cases hu : node.key = UINT_MAX
    · simp only [insNode, if_pos hu, if_neg hkey]
    · simp only [insNode, if_neg hu, List.append_assoc, List.singleton_append]
  · have hh : HashTable.hash
        ⟨t.nodes.set (t.hash (atoi x))
          (insNode (t.hash (atoi x)) b (insNode (t.hash (atoi x)) a node)), t.tableSize, t.undefinedDelete⟩ (atoi x) =
        t.hash (atoi x) := rfl
    rw [Search_of_getElem? _ x _ (by rw [hh]; exact hget2)]
    by_cases hu : node.key = UINT_MAX
    · simp only [insNode, if_pos hu, if_neg hkey, if_pos ha]
    · have hne : ¬ node.bid.bidId = x := hhead hu
      simp only [insNode, if_neg hu, if_neg hne, List.append_assoc]
      rw [findBid_append_absent x _ node.next hchain]
      simp [findBid, ha]

set_option maxRecDepth 100000 in
/-- C13, at an instance: two records with identifier 537 inserted into the table of size 179
that holds 179 and 358 in bucket 0. -/
theorem C13_duplicate_insert_witness :
    ∃ t1 t2, chainedTable.Insert (mkBid "537" "first") = some t1 ∧
      t1.Insert (mkBid "537" "second") = some t2 ∧
      t2.nodes[chainedTable.hash (atoi "537")]? = some
        (if (0 : Nat) = UINT_MAX then
          { bid := mkBid "537" "first", key := chainedTable.hash (atoi "537"),
            next := [⟨mkBid "358" "b", 0⟩] ++
              [⟨mkBid "537" "second", chainedTable.hash (atoi "537")⟩] }
        else
          { bid := mkBid "179" "a", key := 0,
            next := [⟨mkBid "358" "b", 0⟩] ++
              [⟨mkBid "537" "first", chainedTable.hash (atoi "537")⟩,
                ⟨mkBid "537" "second", chainedTable.hash (atoi "537")⟩] }) ∧
      t2.Search "537" = some (mkBid "537" "first") :=
  C13_duplicate_insert chainedTable (by decide) (by decide) "537" (mkBid "537" "first")
    (mkBid "537" "second") (by decide) (by decide)
    { bid := mkBid "179" "a", key := 0, next := [⟨mkBid "358" "b", 0⟩] }
    (by decide) (by decide) (by decide)

/-- C14: when the head of the bucket of `x` has another identifier and the first chained
node with identifier `x` is `n`, the chain being `pre ++ n :: post`, `Remove(x)` succeeds and
unlinks exactly `n`: the bucket keeps its head (record and key) and the chain `pre ++ post`,
every other bucket and `tableSize` are as before; and when no node of `post` has identifier
`x`, `Search(x)` afterwards returns the default record. -/
theorem C14_remove_chained (t : HashTable) (x : String) (node : Node) (n : NodeData)
    (pre post : List NodeData) (hnode : t.nodes[t.hash (atoi x)]? = some node)
    (hhead : node.bid.bidId ≠ x) (hchain : node.next = pre ++ n :: post)
    (hn : n.bid.bidId = x) (hpre : ∀ m ∈ pre, m.bid.bidId ≠ x) :
    ∃ t1, t.Remove x = some t1 ∧ t1.tableSize = t.tableSize ∧
      t1.nodes = t.nodes.set (t.hash (atoi x)) { node with next := pre ++ post } ∧
      t1.nodes[t.hash (atoi x)]? = some { node with next := pre ++ post } ∧
      (∀ i, i ≠ t.hash (atoi x) → t1.nodes[i]? = t.nodes[i]?) ∧
      ((∀ m ∈ post, m.bid.bidId ≠ x) → t1.Search x = some {}) := by
  have hlen := getElem?_lt _ _ _ hnode
  have hget : (t.nodes.set (t.hash (atoi x)) { node with next := pre ++ post })[t.hash (atoi x)]? =
      some { node with next := pre ++ post } := by
    rw [List.getElem?_set, if_pos rfl, if_pos hlen]
  refine ⟨{ t with nodes := t.nodes.set (t.hash (atoi x)) { node with next := pre ++ post } },
    ?_, rfl, rfl, hget, ?_, ?_⟩
  · simp only [HashTable.Remove, hnode, if_neg hhead, hchain, unlink_first x n post hn pre hpre]
  · intro i hi
    have hne : ¬ t.hash (atoi x) = i := fun e => hi e.symm
    simp only [List.getElem?_set, if_neg hne]
  · intro hpost
    have hh : HashTable.hash
        { t with nodes := t.nodes.set (t.hash (atoi x)) { node with next := pre ++ post } }
        (atoi x) = t.hash (atoi x) := rfl
    simp only [HashTable.Search, hh, hget, if_neg hhead]
    rw [findBid_none x (pre ++ post) fun m hm => by
      rcases List.mem_append.mp hm with h1 | h1
      · exact hpre m h1
      · exact hpost m h1]
    rfl

set_option maxRecDepth 100000 in
/-- C14, at an instance: `Remove("358")` in the table of size 179 that holds 179 as head and
358 chained in bucket 0. -/
theorem C14_remove_chained_witness :
    ∃ t1, chainedTable.Remove "358" = some t1 ∧ t1.tableSize = chainedTable.tableSize ∧
      t1.nodes = chainedTable.nodes.set (chainedTable.hash (atoi "358"))
        { bid := mkBid "179" "a", key := 0, next := [] ++ [] } ∧
      t1.nodes[chainedTable.hash (atoi "358")]? =
        some { bid := mkBid "179" "a", key := 0, next := [] ++ [] } ∧
      (∀ i, i ≠ chainedTable.hash (atoi "358") → t1.nodes[i]? = chainedTable.nodes[i]?) ∧
      ((∀ m ∈ ([] : List NodeData), m.bid.bidId ≠ "358") → t1.Search "358" = some {}) :=
  C14_remove_chained chainedTable "358"
    { bid := mkBid "179" "a", key := 0, next := [⟨mkBid "358" "b", 0⟩] } ⟨mkBid "358" "b", 0⟩
    [] [] (by decide) (by decide) (by decide) (by decide) (by decide)

/-! ## Sorting: partition, termination -/

theorem title_lt_of_data_lt (a b : String) (h : a.data < b.data) : a < b :=
  String.lt_iff_toList_lt.mpr h

/-- C15: for every vector of bids (its length an `int`) and indices
`0 <= begin <= end < length`, `partition(bids, begin, end)` returns an index `p` with
`begin <= p <= end` and leaves a vector of the same length in which the title at `p` is the
original title at `end` (the pivot), every index from `begin` to `p - 1` has a title `<=`
the pivot, every index from `p + 1` to `end` has a title `>` the pivot, and every record
outside the range from `begin` to `end` is the original one. -/
theorem C15_partition_spec (bids : List Bid) (begin end_ : Int) (hsize : bids.length < 2 ^ 31)
    (hb : 0 ≤ begin) (hbe : begin ≤ end_) (he : end_ < (bids.length : Int)) :
    ∃ (p : Int) (r : List Bid), partition bids begin end_ = (p, r) ∧
      begin ≤ p ∧ p ≤ end_ ∧ r.length = bids.length ∧
      (nth r p.toNat).title = (nth bids end_.toNat).title ∧
      (∀ k : Nat, begin ≤ (k : Int) → (k : Int) ≤ p - 1 →
        (nth r k).title ≤ (nth bids end_.toNat).title) ∧
      (∀ k : Nat, p + 1 ≤ (k : Int) → (k : Int) ≤ end_ →
        (nth bids end_.toNat).title < (nth r k).title) ∧
      (∀ k : Nat, ((k : Int) < begin ∨ end_ < (k : Int)) → nth r k = nth bids k) := by
  have _ := hsize
  obtain ⟨⟨m1, m2, m3, m4⟩, ⟨s1, s2⟩, _, hp⟩ := partition_spec bids begin end_ hb hbe he
  refine ⟨(partition bids begin end_).1, (partition bids begin end_).2, rfl, m1, m2, s1, hp,
    ?_, ?_, s2⟩
  · intro k hk1 hk2
    have := m3 k hk1 (by omega)
    rw [hp] at this
    exact String.le_iff_toList_le.mpr this
  · intro k hk1 hk2
    have := m4 k (by omega) hk2
    rw [hp] at this
    exact title_lt_of_data_lt _ _ this

set_option maxRecDepth 100000 in
/-- C15, at an instance: the range from 0 to 3 of the five sample bids, pivot title b, with
the result computed. -/
theorem C15_partition_spec_witness :
    partition sampleBids 0 3 =
        (1, [mkBid "3" "a", mkBid "4" "b", mkBid "1" "d", mkBid "2" "c", mkBid "5" "c"]) ∧
      ∃ (p : Int) (r : List Bid), partition sampleBids 0 3 = (p, r) ∧
        0 ≤ p ∧ p ≤ 3 ∧ r.length = sampleBids.length ∧
        (nth r p.toNat).title = (nth sampleBids (3 : Int).toNat).title ∧
        (∀ k : Nat, 0 ≤ (k : Int) → (k : Int) ≤ p - 1 →
          (nth r k).title ≤ (nth sampleBids (3 : Int).toNat).title) ∧
        (∀ k : Nat, p + 1 ≤ (k : Int) → (k : Int) ≤ 3 →
          (nth sampleBids (3 : Int).toNat).title < (nth r k).title) ∧
        (∀ k : Nat, ((k : Int) < 0 ∨ 3 < (k : Int)) → nth r k = nth sampleBids k) :=
  ⟨by decide, C15_partition_spec sampleBids 0 3 (by decide) (by decide) (by decide) (by decide)⟩

/-- C18: `quickSort` terminates.  A call with `begin >= end` returns at once with the vector
untouched.  For a range within the vector with `begin < end`, the index `mid` returned by
`partition` satisfies `begin <= mid <= end`, so that both ranges of the recursive calls,
from `begin` to `mid - 1` and from `mid + 1` to `end`, are strictly shorter than the range
from `begin` to `end`; and the call returns, the depth of the recursion being at most the
length of the range. -/
theorem C18_quickSort_terminates (bids : List Bid) (begin end_ : Int) :
    (begin ≥ end_ → quickSort bids begin end_ = some bids) ∧
      (0 ≤ begin → begin < end_ → end_ < (bids.length : Int) →
        begin ≤ (partition bids begin end_).1 ∧ (partition bids begin end_).1 ≤ end_ ∧
        ((partition bids begin end_).1 - 1) - begin < end_ - begin ∧
        end_ - ((partition bids begin end_).1 + 1) < end_ - begin ∧
        ∃ r, quickSort bids begin end_ = some r) := by
  constructor
  · intro h
    unfold quickSort
    have : (end_ - begin).toNat = 0 := by omega
    rw [this]
    simp only [quickSortFuel, if_pos h]
  · intro hb hbe he
    obtain ⟨⟨m1, m2, _, _⟩, _, _, _⟩ := partition_spec bids begin end_ hb (by omega) he
    obtain ⟨r, h1, _, _, _⟩ := quickSortFuel_spec ((end_ - begin).toNat + 1) bids begin end_
      hb he (by omega)
    exact ⟨m1, m2, by omega, by omega, r, h1⟩

/-! ## Hash table: `PrintAll` -/

theorem printLoop_eq (t : HashTable) : ∀ (n i : Nat), i + n = t.nodes.length →
    printLoop t n i = some ((t.nodes.drop i).flatMap printBucket) := by
  intro n
  induction n with
  | zero =>
    intro i h
    have : t.nodes.drop i = [] := List.drop_eq_nil_of_le (by omega)
    rw [this]
    rfl
  | succ n ih =>
    intro i h
    have hi : i < t.nodes.length := by omega
    unfold printLoop
    rw [List.getElem?_eq_getElem hi, ih (i + 1) (by omega)]
    simp only [Option.map_some']
    rw [List.drop_eq_getElem_cons hi, List.flatMap_cons]

theorem PrintAll_eq (t : HashTable) (hwf : WF t) :
    t.PrintAll = some (t.nodes.flatMap printBucket) := by
  unfold HashTable.PrintAll
  rw [printLoop_eq t t.tableSize 0 (by rw [hwf.1]; omega)]
  rfl

theorem flatMap_by_index (g : Nat → List NodeData) : ∀ (l : List Node) (k : Nat),
    (∀ i node, l[i]? = some node → printBucket node = g (k + i)) →
      l.flatMap printBucket = (List.range' k l.length).flatMap g := by
  intro l
  induction l with
  | nil => intro k _; rfl
  | cons x xs ih =>
    intro k h
    simp only [List.flatMap_cons, List.length_cons, List.range'_succ]
    have h0 : printBucket x = g k := h 0 x (by simp)
    rw [h0, ih (k + 1) fun i node hn => by
      have := h (i + 1) node (by simpa using hn)
      rw [this]
      congr 1
      omega]

theorem insNode_insertOnly (h : Int → Nat) (bids : List Bid) (b : Bid) (node : Node)
    (hkey : h (atoi b.bidId) ≠ UINT_MAX) (hn : InsertOnly h bids (h (atoi b.bidId)) node) :
    InsertOnly h (bids ++ [b]) (h (atoi b.bidId)) (insNode (h (atoi b.bidId)) b node) := by
  obtain ⟨h1, h2⟩ := hn
  have hfil : (List.filter (fun c => decide (h (atoi c.bidId) = h (atoi b.bidId))) (bids ++ [b])) =
      List.filter (fun c => decide (h (atoi c.bidId) = h (atoi b.bidId))) bids ++ [b] := by
    rw [List.filter_append]
    simp
  unfold InsertOnly
  rw [hfil, List.map_append, ← h2]
  unfold insNode
  by_cases hk : node.key = UINT_MAX
  · rw [if_pos hk]
    refine ⟨fun e => absurd e hkey, ?_⟩
    simp [printBucket, hk, hkey, h1 hk]
  · rw [if_neg hk]
    refine ⟨fun e => absurd e hk, ?_⟩
    simp [printBucket, hk]

theorem other_insertOnly (h : Int → Nat) (bids : List Bid) (b : Bid) (i : Nat) (node : Node)
    (hi : h (atoi b.bidId) ≠ i) (hn : InsertOnly h bids i node) :
    InsertOnly h (bids ++ [b]) i node := by
  obtain ⟨h1, h2⟩ := hn
  refine ⟨h1, ?_⟩
  rw [h2, List.filter_append]
  simp [hi]

theorem run_insertOnly (rest : List Bid) : ∀ (done : List Bid) (t : HashTable), WF t →
    t.tableSize ≤ UINT_MAX →
    (∀ i node, t.nodes[i]? = some node → InsertOnly t.hash done i node) →
    ∃ t1, run t (rest.map Op.insert) = some t1 ∧ WF t1 ∧ t1.tableSize = t.tableSize ∧
      ∀ i node, t1.nodes[i]? = some node → InsertOnly t1.hash (done ++ rest) i node := by
  induction rest with
  | nil =>
    intro done t hwf _ h
    exact ⟨t, rfl, hwf, rfl, by simpa using h⟩
  | cons b rest ih =>
    intro done t hwf hmax h
    have hk := hash_lt t hwf.2 (atoi b.bidId)
    have hlen : t.hash (atoi b.bidId) < t.nodes.length := by rw [hwf.1]; exact hk
    obtain ⟨t1, h1, h2, h3, h4⟩ :=
      updateAt_WF t hwf (t.hash (atoi b.bidId)) (insNode (t.hash (atoi b.bidId)) b) hk
    have hinv : ∀ i node, t1.nodes[i]? = some node → InsertOnly t1.hash (done ++ [b]) i node := by
      intro i node hnode
      rw [hash_congr t t1 h3]
      rw [h4, List.getElem?_set] at hnode
      by_cases hki : t.hash (atoi b.bidId) = i
      · rw [if_pos hki, if_pos hlen] at hnode
        cases hnode
        rw [← hki]
        apply insNode_insertOnly t.hash done b _ (by omega)
        apply h
        rw [List.getD_eq_getElem?_getD, List.getElem?_eq_getElem hlen]
        rfl
      · rw [if_neg hki] at hnode
        exact other_insertOnly t.hash done b i node hki (h i node hnode)
    obtain ⟨t2, h5, h6, h7, h8⟩ := ih (done ++ [b]) t1 h2 (by rw [h3]; exact hmax) hinv
    refine ⟨t2, ?_, h6, by rw [h7, h3], ?_⟩
    · simp only [List.map_cons, run, step, Insert_eq, h1, Option.some_bind, h5]
    · simpa using h8

theorem filter_lt_succ_perm (f : Bid → Nat) (n : Nat) : ∀ (l : List Bid),
    (l.filter (fun b => f b < n) ++ l.filter (fun b => f b = n)).Perm
      (l.filter fun b => f b < n + 1) := by
  intro l
  induction l with
  | nil => exact List.Perm.refl _
  | cons x xs ih =>
    rcases Nat.lt_trichotomy (f x) n with h | h | h
    · have h1 : ¬ f x = n := by omega
      have h2 : f x < n + 1 := by omega
      simp only [List.filter_cons, h, h1, h2, decide_True, decide_False, if_true, if_false,
        List.cons_append, Bool.false_eq_true]
      exact ih.cons x
    · subst h
      have h1 : ¬ f x < f x := by omega
      have h2 : f x < f x + 1 := by omega
      simp only [List.filter_cons, h1, h2, decide_True, decide_False, if_true, if_false,
        Bool.false_eq_true]
      exact List.perm_middle.trans (ih.cons x)
    · have h1 : ¬ f x < n := by omega
      have h2 : ¬ f x < n + 1 := by omega
      have h3 : ¬ f x = n := by omega
      simp only [List.filter_cons, h1, h2, h3, decide_False, if_false, Bool.false_eq_true]
      exact ih

theorem flatMap_filter_perm (f : Bid → Nat) (l : List Bid) : ∀ (n : Nat),
    ((List.range n).flatMap fun i => l.filter fun b => f b = i).Perm
      (l.filter fun b => f b < n) := by
  intro n
  induction n with
  | zero => simp
  | succ n ih =>
    rw [List.range_succ, List.flatMap_append]
    simp only [List.flatMap_cons, List.flatMap_nil, List.append_nil]
    exact (ih.append_right _).trans (filter_lt_succ_perm f n l)

theorem linesByBucket_perm (h : Int → Nat) (size : Nat) (bids : List Bid)
    (hlt : ∀ b ∈ bids, h (atoi b.bidId) < size) :
    ((linesByBucket h size bids).map NodeData.bid).Perm bids := by
  unfold linesByBucket
  rw [List.map_flatMap]
  simp only [List.map_map, Function.comp_def, List.map_id']
  refine (flatMap_filter_perm (fun b => h (atoi b.bidId)) bids size).trans ?_
  rw [List.filter_eq_self.mpr fun b hb => by simpa using hlt b hb]

/-- C11: in a table with `size > 0` buckets (`size` an `unsigned int`) built from the empty
table by `Insert` of the records `bids` in order, every call succeeds and the lines of
`PrintAll` are those of `linesByBucket`: bucket by bucket in ascending index, in each bucket
the records that hash to it in their order of insertion (the head, then the chain), each
with the key of its bucket.  These lines render exactly the inserted records, each once. -/
theorem C11_printAll_insert_only (size : Nat) (hpos : 0 < size) (hmax : size ≤ UINT_MAX)
    (bids : List Bid) :
    ∃ t out, run (HashTable.new size) (bids.map Op.insert) = some t ∧
      t.PrintAll = some out ∧
      out = linesByBucket (HashTable.new size).hash size bids ∧
      (out.map NodeData.bid).Perm bids := by
  have h0 : ∀ i node, (HashTable.new size).nodes[i]? = some node →
      InsertOnly (HashTable.new size).hash [] i node := by
    intro i node h
    rw [new_getElem? size i node h]
    exact ⟨fun _ => rfl, rfl⟩
  obtain ⟨t, h1, hwf, h3, h4⟩ :=
    run_insertOnly bids [] (HashTable.new size) (WF_new size hpos) hmax h0
  have hsz : t.tableSize = size := h3
  have hlen : t.nodes.length = size := by rw [hwf.1, hsz]
  have hout : t.nodes.flatMap printBucket = linesByBucket (HashTable.new size).hash size bids := by
    unfold linesByBucket
    have hr : List.range size = List.range' 0 t.nodes.length := by
      rw [hlen, List.range_eq_range']
    rw [hr]
    apply flatMap_by_index _ t.nodes 0
    intro i node hnode
    have := (h4 i node hnode).2
    rw [hash_congr (HashTable.new size) t h3] at this
    simpa using this
  refine ⟨t, _, h1, PrintAll_eq t hwf, hout, ?_⟩
  rw [hout]
  exact linesByBucket_perm _ size bids fun b _ => Nat.mod_lt _ hpos

set_option maxRecDepth 100000 in
/-- C11, at an instance: `Insert` of 358, 1, 179 and 180 into the table of size 179; the
lines come out as 358, 179 (bucket 0), then 1, 180 (bucket 1). -/
theorem C11_printAll_insert_only_witness :
    linesByBucket (HashTable.new 179).hash 179
        [mkBid "358" "a", mkBid "1" "b", mkBid "179" "c", mkBid "180" "d"] =
        [⟨mkBid "358" "a", 0⟩, ⟨mkBid "179" "c", 0⟩, ⟨mkBid "1" "b", 1⟩, ⟨mkBid "180" "d", 1⟩] ∧
      ∃ t out, run (HashTable.new 179)
          ([mkBid "358" "a", mkBid "1" "b", mkBid "179" "c", mkBid "180" "d"].map Op.insert) =
          some t ∧
        t.PrintAll = some out ∧
        out = linesByBucket (HashTable.new 179).hash 179
          [mkBid "358" "a", mkBid "1" "b", mkBid "179" "c", mkBid "180" "d"] ∧
        (out.map NodeData.bid).Perm
          [mkBid "358" "a", mkBid "1" "b", mkBid "179" "c", mkBid "180" "d"] :=
  ⟨by decide, C11_printAll_insert_only 179 (by decide) (by decide) _⟩

end CS300
